import Mathlib

/-!
# Verification of the batched BLAS kernel library (dot / gemv / ger / banded / packed engines)

This file gives a shallow embedding, in Lean 4, of the reduction and tiling
kernels of the library (`src/reference/...`) and proves the specified
properties of the dot-product launcher, the gemv and ger early exits, the
banded/packed index remappings, and the dispatch heuristics.

Modelling conventions:
* Element values live in an arbitrary commutative ring `R`; the conjugation
  applied by `CONJ` kernels is an arbitrary function `conjOp : R → R`
  (instantiated with complex conjugation for complex element types and the
  identity for real ones).  Witness instances use `R = ℤ` or the Gaussian
  integers.
* Device memory is a total function `ℤ → R`; a pointer is an address
  (measured in elements, as all pointer arithmetic in the source is).
* Loops with a data-dependent exit are embedded as fuelled recursions that
  test the exit condition exactly as the source does; loops of the shape
  `for(i = t0; i < n; i += step)` over a fixed stride are embedded as sums
  over the set of visited indices.
* A parallel grid of blocks/threads is embedded by summing (for reductions)
  or concatenating write lists (for updates) over all `(block, thread)`
  coordinates; within one call all writes of the kernels touched here go to
  pairwise distinct addresses or are accumulations, so this is faithful.
-/

set_option maxHeartbeats 1000000

/-- The element types the dot launcher is instantiated at (`T`, with the
accumulation type `V = T`, the default template argument). -/
inductive ElemType
  | half
  | bf16
  | f32
  | c32
  | f64
  | c64
deriving DecidableEq

/-- `sizeof(T)` for each element type (bytes). -/
def elemBytes : ElemType → ℕ
  | .half => 2
  | .bf16 => 2
  | .f32 => 4
  | .c32 => 8
  | .f64 => 8
  | .c64 => 16

/-- `rocblas_dot_WIN<T>()` from `src/reference/dot/rocblas_dot.hpp` lines 31-43:
work-item number of elements, chosen by the element byte size. -/
def rocblas_dot_WIN (t : ElemType) : ℕ :=
  let nb := elemBytes t
  if nb ≥ 8 then 2 else if nb ≥ 4 then 4 else 8

/-- `rocblas_dot_one_block_threshold<T>()` from
`src/reference/dot/rocblas_dot_kernels.hpp` lines 32-45. -/
def rocblas_dot_one_block_threshold (t : ElemType) : ℕ :=
  if t = .f32 then 31000
  else if t = .c32 then 16000
  else if t = .f64 then 13000
  else if t = .c64 then 10000
  else 32768

/-- Modelled from the spec (the helper `rocblas_reduction_kernel_block_count`
lives in `rocblas_reduction.hpp`, which is not under `src/`): the generic
two-phase path uses "block count = ceil(n / (group_size*WIN))". -/
def rocblas_reduction_kernel_block_count (n k : ℕ) : ℕ :=
  (n + k - 1) / k

/-- Modelled from the spec §4.1 (the helper `rocblas_dot_block_reduce` lives in
`rocblas_reduction.hpp`, not under `src/`): the block-wide tree reduction
produces the sum of the values held by all `NB` lanes of the block; in exact
arithmetic the tree shape is irrelevant and the result is the plain sum. -/
def rocblas_dot_block_reduce {R : Type} [CommRing R] (NB : ℕ) (f : ℕ → R) : R :=
  ∑ t in Finset.range NB, f t

/-- Modelled from the spec §4.1 (the helper `rocblas_wavefront_reduce` is not
under `src/`): sum of the values held by the `W` lanes of one wavefront. -/
def rocblas_wavefront_reduce {R : Type} [CommRing R] (W : ℕ) (f : ℕ → R) : R :=
  ∑ t in Finset.range W, f t

/-- Modelled from the spec §4.2 (the helper `load_ptr_batch` is not under
`src/`): for a strided-batched operand the per-batch base address is
`base + stride*batch + shift` (all in element units). -/
def load_ptr_batch (base stride : ℤ) (batch : ℕ) (shift : ℤ) : ℤ :=
  base + stride * (batch : ℤ) + shift

/-- The negative-increment pre-shift used identically by the dot launcher
(`rocblas_dot_kernels.hpp` lines 417-419) and the ger launcher
(`rocblas_ger_kernels.hpp` lines 400-402):
`shift = inc < 0 ? offset - inc*(len-1) : offset`. -/
def negShift (offset inc : ℤ) (len : ℕ) : ℤ :=
  if inc < 0 then offset - inc * ((len : ℤ) - 1) else offset

/-- `CONJ ? conj(v) : v`, with the conjugation given as a parameter. -/
def cstar {R : Type} (conjOp : R → R) (CONJ : Bool) (v : R) : R :=
  if CONJ then conjOp v else v

/-- The per-thread accumulation loop shared by `rocblas_dot_kernel`,
`rocblas_dot_kernel_inc1` and `rocblas_dot_kernel_magsq`
(`rocblas_dot_kernels.hpp`): `for(j = 0; j < WIN && i < n; j++, i += inc)`
accumulating `f i`.  The first argument of the recursion is the remaining
fuel `WIN - j`, the second the current index `i`. -/
def dotLoop {R : Type} [CommRing R] (f : ℕ → R) (n inc : ℕ) : ℕ → ℕ → R
  | 0, _ => 0
  | j + 1, i => if i < n then f i + dotLoop f n inc j (i + inc) else 0

/-- The paired accumulation loop of `rocblas_dot_kernel_inc1by2`
(`rocblas_dot_kernels.hpp` lines 140-147) for the 2-way vectorized types:
`for(j = 0; j < WIN && i < n - 1; j++, i += inc)` accumulating
`f i + f (i+1)`.  Returns the partial sum together with the exit value of
`i`, which the kernel inspects for the odd tail element. -/
def by2Loop {R : Type} [CommRing R] (f : ℕ → R) (n inc : ℕ) : ℕ → ℕ → R × ℕ
  | 0, i => (0, i)
  | j + 1, i =>
    if i + 1 < n then
      let r := by2Loop f n inc j (i + inc)
      (f i + f (i + 1) + r.1, r.2)
    else (0, i)

/-- The clean-up loop of `rocblas_dot_kernel_gfx942_float_double`
(`rocblas_dot_kernels.hpp` lines 263-265):
`for(; i < 4*NB*gridDim.x && i < n; i += NB*gridDim.x)`.  The thread's start
index is below `G = NB*gridDim.x` and the index grows by `G` each step, so
the loop runs at most 4 times; fuel 4 is exact. -/
def gfx942TailLoop {R : Type} [CommRing R] (f : ℕ → R) (n G : ℕ) : ℕ → ℕ → R
  | 0, _ => 0
  | fuel + 1, i =>
    if i < 4 * G ∧ i < n then f i + gfx942TailLoop f n G fuel (i + G) else 0

/-- The per-thread body of `rocblas_dot_kernel_gfx942_float_double`
(`rocblas_dot_kernels.hpp` lines 244-265): the 4-way unrolled block when
`i + 3*NB*gridDim.x < n`, otherwise the clean-up loop. -/
def gfx942Thread {R : Type} [CommRing R] (f : ℕ → R) (n G : ℕ) (g : ℕ) : R :=
  if g + 3 * G < n then f g + f (g + G) + f (g + 2 * G) + f (g + 3 * G)
  else gfx942TailLoop f n G 4 g

/-- `rocblas_dot_kernel` (`rocblas_dot_kernels.hpp` lines 182-226), composed
with `rocblas_dot_save_sum` and, when `gridDim.x > 1`, the spec-modelled
finalize kernel `rocblas_reduction_kernel_part2` (not under `src/`; the spec
says phase 2 sums the per-block partials of each batch element): the value
delivered for batch `b`.  Thread `t` of block `bk` starts at
`i = bk*NB + t` and strides by `inc = NB*gridDim.x`; `x` is conjugated when
`CONJ`. -/
def rocblas_dot_kernel_out {R : Type} [CommRing R] (conjOp : R → R) (CONJ : Bool)
    (blocks NB W n : ℕ) (mem : ℤ → R)
    (xa shiftx incx stridex ya shifty incy stridey : ℤ) (b : ℕ) : R :=
  ∑ bk in Finset.range blocks,
    rocblas_dot_block_reduce NB fun t =>
      dotLoop
        (fun i =>
          mem (load_ptr_batch ya stridey b shifty + (i : ℤ) * incy)
            * cstar conjOp CONJ (mem (load_ptr_batch xa stridex b shiftx + (i : ℤ) * incx)))
        n (NB * blocks) W (bk * NB + t)

/-- `rocblas_dot_kernel_inc1` (`rocblas_dot_kernels.hpp` lines 60-102),
composed with `rocblas_dot_save_sum` and the spec-modelled finalize kernel:
the unit-increment variant of `rocblas_dot_kernel_out`. -/
def rocblas_dot_kernel_inc1_out {R : Type} [CommRing R] (conjOp : R → R) (CONJ : Bool)
    (blocks NB W n : ℕ) (mem : ℤ → R)
    (xa shiftx stridex ya shifty stridey : ℤ) (b : ℕ) : R :=
  ∑ bk in Finset.range blocks,
    rocblas_dot_block_reduce NB fun t =>
      dotLoop
        (fun i =>
          mem (load_ptr_batch ya stridey b shifty + (i : ℤ))
            * cstar conjOp CONJ (mem (load_ptr_batch xa stridex b shiftx + (i : ℤ))))
        n (NB * blocks) W (bk * NB + t)

/-- Whether `rocblas_dot_kernel_inc1by2` takes its 2-way vectorized branch:
the `if constexpr` at `rocblas_dot_kernels.hpp` lines 133-136 selects it for
`rocblas_half`, `rocblas_bfloat16` and `rocblas_float`. -/
def dotKernelDoubled (t : ElemType) : Bool :=
  t = .half ∨ t = .bf16 ∨ t = .f32

/-- `rocblas_dot_kernel_inc1by2` (`rocblas_dot_kernels.hpp` lines 104-172),
composed with `rocblas_dot_save_sum` and the spec-modelled finalize kernel.
For the 2-way vectorized types the thread start index and stride are doubled
(`i *= 2; inc *= 2`), pairs are accumulated while `i < n - 1`, and the odd
tail element is added by the thread whose exit index equals `n - 1`;
otherwise the kernel runs the plain `dotLoop`. -/
def rocblas_dot_kernel_inc1by2_out {R : Type} [CommRing R] (conjOp : R → R) (CONJ : Bool)
    (doubled : Bool) (blocks NB W n : ℕ) (mem : ℤ → R)
    (xa shiftx stridex ya shifty stridey : ℤ) (b : ℕ) : R :=
  let f : ℕ → R := fun i =>
    mem (load_ptr_batch ya stridey b shifty + (i : ℤ))
      * cstar conjOp CONJ (mem (load_ptr_batch xa stridex b shiftx + (i : ℤ)))
  if doubled then
    ∑ bk in Finset.range blocks,
      rocblas_dot_block_reduce NB fun t =>
        let r := by2Loop f n (2 * (NB * blocks)) W (2 * (bk * NB + t))
        r.1 + (if n % 2 = 1 ∧ r.2 = n - 1 then f (n - 1) else 0)
  else
    ∑ bk in Finset.range blocks,
      rocblas_dot_block_reduce NB fun t =>
        dotLoop f n (NB * blocks) W (bk * NB + t)

/-- `rocblas_dot_kernel_magsq` (`rocblas_dot_kernels.hpp` lines 276-323),
composed with `rocblas_dot_save_sum` and the spec-modelled finalize kernel:
reads only the `x` operand and accumulates `x[idx] * (CONJ ? conj(x[idx]) : x[idx])`. -/
def rocblas_dot_kernel_magsq_out {R : Type} [CommRing R] (conjOp : R → R) (CONJ : Bool)
    (blocks NB W n : ℕ) (mem : ℤ → R)
    (xa shiftx incx stridex : ℤ) (b : ℕ) : R :=
  ∑ bk in Finset.range blocks,
    rocblas_dot_block_reduce NB fun t =>
      dotLoop
        (fun i =>
          mem (load_ptr_batch xa stridex b shiftx + (i : ℤ) * incx)
            * cstar conjOp CONJ (mem (load_ptr_batch xa stridex b shiftx + (i : ℤ) * incx)))
        n (NB * blocks) W (bk * NB + t)

/-- `rocblas_dot_kernel_gfx942_float_double`
(`rocblas_dot_kernels.hpp` lines 228-274), composed with the finalize kernel
`rocblas_reduction_kernel_part2` (always launched on this path): no
conjugation, 4-way unrolled accumulation. -/
def rocblas_dot_kernel_gfx942_out {R : Type} [CommRing R]
    (blocks NB n : ℕ) (mem : ℤ → R)
    (xa shiftx incx stridex ya shifty incy stridey : ℤ) (b : ℕ) : R :=
  ∑ bk in Finset.range blocks,
    rocblas_dot_block_reduce NB fun t =>
      gfx942Thread
        (fun i =>
          mem (load_ptr_batch ya stridey b shifty + (i : ℤ) * incy)
            * mem (load_ptr_batch xa stridex b shiftx + (i : ℤ) * incx))
        n (NB * blocks) (bk * NB + t)

/-- `rocblas_dot_batched_4_kernel` (`rocblas_dot_kernels.hpp` lines 325-362):
one wavefront per batch element; lane `t` iterates
`for(tid = t; tid < n; tid += WARP)` — the visited indices are exactly the
`i < n` with `i % WARP = t` — and the wavefront reduction sums the lanes. -/
def rocblas_dot_batched_4_kernel_out {R : Type} [CommRing R] (conjOp : R → R) (CONJ : Bool)
    (WARP n : ℕ) (mem : ℤ → R)
    (xa shiftx incx stridex ya shifty incy stridey : ℤ) (b : ℕ) : R :=
  rocblas_wavefront_reduce WARP fun t =>
    ∑ i in (Finset.range n).filter (fun i => i % WARP = t),
      cstar conjOp CONJ (mem (load_ptr_batch xa stridex b shiftx + (i : ℤ) * incx))
        * mem (load_ptr_batch ya stridey b shifty + (i : ℤ) * incy)

/-- Pointer modes of a handle. -/
inductive PointerMode
  | host
  | device
deriving DecidableEq

/-- The part of the handle state the launchers consult.  The handle type
itself is not under `src/`; the fields are modelled from the spec (§6: the
architecture identification fact, the pointer mode, and the device-memory
size-query state are read from the handle). -/
structure Handle where
  pointerMode : PointerMode
  sizeQuery : Bool
  arch : ℤ
  warpSize : ℕ

/-- Statuses returned by the launchers in this file. -/
inductive RocblasStatus
  | success
  | sizeUnchanged
deriving DecidableEq

/-- The kernel/grid selection computed by `rocblas_internal_dot_launcher`
(`rocblas_dot_kernels.hpp` lines 386-736): which kernel is launched and with
how many blocks per batch element in the x-grid-dimension.  `none` is the
quick return (lines 386-405). -/
inductive DotChoice
  | small
  | oneBlockInc1by2 (blocks : ℕ)
  | oneBlockStrided (blocks : ℕ)
  | oneBlockMagsq (blocks : ℕ)
  | gfx942 (blocks : ℕ)
  | lastInc1 (blocks : ℕ)
  | lastStrided (blocks : ℕ)
  | lastMagsq (blocks : ℕ)
deriving DecidableEq

/-- Whether the choice is one of the three kernels of the
`n <= single_block_threshold` branch. -/
def DotChoice.isOneBlock : DotChoice → Bool
  | .oneBlockInc1by2 _ => true
  | .oneBlockStrided _ => true
  | .oneBlockMagsq _ => true
  | _ => false

/-- Whether the choice launches the squared-magnitude kernel
`rocblas_dot_kernel_magsq`. -/
def DotChoice.isMagsq : DotChoice → Bool
  | .oneBlockMagsq _ => true
  | .lastMagsq _ => true
  | _ => false

/-- The x-grid-dimension block count of the choice (1 for the small-n
high-batch kernel, which uses one wavefront per batch element). -/
def DotChoice.blocksOf : DotChoice → ℕ
  | .small => 1
  | .oneBlockInc1by2 blocks => blocks
  | .oneBlockStrided blocks => blocks
  | .oneBlockMagsq blocks => blocks
  | .gfx942 blocks => blocks
  | .lastInc1 blocks => blocks
  | .lastStrided blocks => blocks
  | .lastMagsq blocks => blocks

/-- Whether the choice launches the phase-2 finalize kernel
`rocblas_reduction_kernel_part2`: the gfx942 path always does
(lines 620-628), the generic path only when `blocks > 1` (line 716). -/
def DotChoice.hasFinalize : DotChoice → Bool
  | .gfx942 _ => true
  | .lastInc1 blocks => decide (1 < blocks)
  | .lastStrided blocks => decide (1 < blocks)
  | .lastMagsq blocks => decide (1 < blocks)
  | _ => false

/-- `is_float` of the launcher (line 408): `V = float ∧ T = float`; the
launcher is embedded at its default instantiation `V = T`. -/
def dotIsFloat (t : ElemType) : Bool := t = .f32

/-- `is_double` of the launcher (line 409). -/
def dotIsDouble (t : ElemType) : Bool := t = .f64

/-- The aliasing test of the dot launcher (`rocblas_dot_kernels.hpp` lines
514 and 658): the two operand descriptors are identical when
`x == y && incx == incy && offsetx == offsety && stridex == stridey`
(negated in the source to pick the two-operand kernels). -/
def dotSameDescriptor (xa incx offsetx stridex ya incy offsety stridey : ℤ) : Bool :=
  xa = ya ∧ incx = incy ∧ offsetx = offsety ∧ stridex = stridey

/-- The kernel selection of `rocblas_internal_dot_launcher`
(`rocblas_dot_kernels.hpp` lines 386-736) as a pure function of its inputs.
`sddotLower` stands for the constant `sddot_gfx942_lower_threshold`
(declared in `rocblas_level1_threshold.hpp`, which is not under `src/`; the
spec only says "n very large", so the threshold is kept as a parameter).
The branch structure mirrors the source exactly:
quick return (line 387); `n <= 1024 && batch_count >= 256` (line 423);
`n <= single_block_threshold` (line 491) with the aliasing test of line 514
and the unit-increment test of line 516; the gfx942 test of lines 586-587;
and the generic two-phase path (lines 640-736). -/
def rocblas_internal_dot_dispatch (et : ElemType) (NB : ℕ) (hd : Handle)
    (sddotLower : ℤ) (n : ℤ)
    (xa offsetx incx stridex ya offsety incy stridey : ℤ)
    (batch_count : ℤ) : Option DotChoice :=
  if n ≤ 0 ∨ batch_count = 0 then none
  else
    let aliased : Bool :=
      dotSameDescriptor xa incx offsetx stridex ya incy offsety stridey
    if n ≤ 1024 ∧ batch_count ≥ 256 then some .small
    else if n ≤ (rocblas_dot_one_block_threshold et : ℤ) then
      let blocks := rocblas_reduction_kernel_block_count n.toNat (1024 * 32)
      if ¬aliased then
        if incx = 1 ∧ incy = 1 then some (.oneBlockInc1by2 blocks)
        else some (.oneBlockStrided blocks)
      else some (.oneBlockMagsq blocks)
    else if hd.arch = 942 ∧ (dotIsFloat et ∨ dotIsDouble et) ∧ sddotLower < n ∧ ¬aliased then
      some (.gfx942 (rocblas_reduction_kernel_block_count n.toNat (1024 * 4)))
    else
      let blocks := rocblas_reduction_kernel_block_count n.toNat (NB * rocblas_dot_WIN et)
      if ¬aliased then
        if incx = 1 ∧ incy = 1 then some (.lastInc1 blocks)
        else some (.lastStrided blocks)
      else some (.lastMagsq blocks)

/-- `rocblas_internal_dot_launcher` (`rocblas_dot_kernels.hpp` lines 366-738):
the status and the final contents of the `results` array.  On the quick
return the results are zeroed for `batch_count > 0` (by `hipMemsetAsync` in
device pointer mode, by host stores otherwise — the stored values agree) and
the size-query mode returns `rocblas_status_size_unchanged` without touching
them.  On the compute paths the value delivered to `results[b]` is the same
in both pointer modes (host mode stages it in the workspace and copies it
back, lines 575-583); the embedding records that value directly. -/
def rocblas_internal_dot_launcher {R : Type} [CommRing R] (conjOp : R → R)
    (et : ElemType) (NB : ℕ) (CONJ : Bool) (hd : Handle) (sddotLower : ℤ)
    (n : ℤ) (mem : ℤ → R)
    (xa offsetx incx stridex ya offsety incy stridey : ℤ)
    (batch_count : ℤ) (results : ℕ → R) : RocblasStatus × (ℕ → R) :=
  match rocblas_internal_dot_dispatch et NB hd sddotLower n
      xa offsetx incx stridex ya offsety incy stridey batch_count with
  | none =>
    if hd.sizeQuery then (.sizeUnchanged, results)
    else (.success, fun i => if (i : ℤ) < batch_count then 0 else results i)
  | some choice =>
    let nn := n.toNat
    let shiftx := negShift offsetx incx nn
    let shifty := negShift offsety incy nn
    let out : ℕ → R :=
      match choice with
      | .small => fun b =>
        rocblas_dot_batched_4_kernel_out conjOp CONJ hd.warpSize nn mem
          xa shiftx incx stridex ya shifty incy stridey b
      | .oneBlockInc1by2 blocks => fun b =>
        rocblas_dot_kernel_inc1by2_out conjOp CONJ (dotKernelDoubled et) blocks 1024 32 nn mem
          xa shiftx stridex ya shifty stridey b
      | .oneBlockStrided blocks => fun b =>
        rocblas_dot_kernel_out conjOp CONJ blocks 1024 32 nn mem
          xa shiftx incx stridex ya shifty incy stridey b
      | .oneBlockMagsq blocks => fun b =>
        rocblas_dot_kernel_magsq_out conjOp CONJ blocks 1024 32 nn mem
          xa shiftx incx stridex b
      | .gfx942 blocks => fun b =>
        rocblas_dot_kernel_gfx942_out blocks 1024 nn mem
          xa shiftx incx stridex ya shifty incy stridey b
      | .lastInc1 blocks => fun b =>
        rocblas_dot_kernel_inc1_out conjOp CONJ blocks NB (rocblas_dot_WIN et) nn mem
          xa shiftx stridex ya shifty stridey b
      | .lastStrided blocks => fun b =>
        rocblas_dot_kernel_out conjOp CONJ blocks NB (rocblas_dot_WIN et) nn mem
          xa shiftx incx stridex ya shifty incy stridey b
      | .lastMagsq blocks => fun b =>
        rocblas_dot_kernel_magsq_out conjOp CONJ blocks NB (rocblas_dot_WIN et) nn mem
          xa shiftx incx stridex b
    (.success, fun b => if (b : ℤ) < batch_count then out b else results b)

/-- Applying a list of `+=` writes `(address, value)` to a memory. -/
def applyAdds {R : Type} [CommRing R] (A : ℤ → R) (ws : List (ℤ × R)) : ℤ → R :=
  ws.foldl (fun acc w => Function.update acc w.1 (acc w.1 + w.2)) A

/-- The element types `rocblas_internal_ger_launcher` is instantiated at. -/
inductive GerElem
  | f32
  | f64
  | c32
  | c64
deriving DecidableEq

/-- The kernel selected by `rocblas_internal_ger_launcher`
(`rocblas_ger_kernels.hpp` lines 422-522). -/
inductive GerChoice
  | doubleBuffered
  | sgerGfx942
  | sger
  | generic
deriving DecidableEq

/-- The dispatch of `rocblas_internal_ger_launcher`
(`rocblas_ger_kernels.hpp` lines 404-412 and 422-522) as a pure function:
`is_gfx90a` is `getArch() == 910` (line 411), `is_gfx942` is
`getArch() == 942` (line 412); the double-buffered path requires gfx90a,
`m > 2000`, `m == n` and the divisibility conditions of line 424; the sger
paths require `float` and `m > 1024` (line 464). -/
def rocblas_internal_ger_dispatch (t : GerElem) (hd : Handle) (m n : ℕ) : GerChoice :=
  if hd.arch = 910 ∧ m > 2000 ∧ m = n ∧
      ((m % 64 = 0 ∧ (t = .f64 ∨ t = .c32)) ∨ (m % 128 = 0 ∧ t = .f32)) then
    .doubleBuffered
  else if t = .f32 ∧ m > 1024 then
    if hd.arch = 942 then .sgerGfx942 else .sger
  else .generic

/-- The `+=` writes performed on `A` by `rocblas_ger_kernel`
(`rocblas_ger_kernels.hpp` lines 30-120) for batch `b`.  The kernel returns
before loading any element of `x`, `y` or `A` when the batch's effective
`alpha` is zero (lines 78-85).  The grid has
`gridX = ceil(m/DIM_X) * ceil(n/(DIM_Y*WIN))` blocks of `DIM_X * DIM_Y`
threads; block `bk` splits into `blkx = bk % num_blocksx`,
`blky = bk / num_blocksx`; thread `(txi, tyi)` updates row
`tx = blkx*DIM_X + txi` (if `< m`) and the `WIN` columns
`ty = (blky*DIM_Y + tyi)*WIN + i` that are `< n`, adding
`(alpha * x[tx*incx]) * (CONJ ? conj(y[yi*incy]) : y[yi*incy])` to
`A[tx + lda*yi]` (values staged through shared memory unchanged). -/
def rocblas_ger_kernel_writes {R : Type} [CommRing R] [DecidableEq R]
    (conjOp : R → R) (CONJ : Bool) (DIMX DIMY W gridX : ℕ) (m n : ℕ) (alpha : R)
    (xmem : ℤ → R) (xa shiftx incx stridex : ℤ)
    (ymem : ℤ → R) (ya shifty incy stridey : ℤ)
    (Aa shifta lda strideA : ℤ) (b : ℕ) : List (ℤ × R) :=
  if alpha = 0 then []
  else
    (List.range gridX).flatMap fun bk =>
      (List.range DIMX).flatMap fun txi =>
        (List.range DIMY).flatMap fun tyi =>
          let num_blocksx := (m - 1) / DIMX + 1
          let blkx := bk % num_blocksx
          let blky := bk / num_blocksx
          let tx := blkx * DIMX + txi
          let ty := (blky * DIMY + tyi) * W
          if tx < m then
            (List.range W).filterMap fun i =>
              let yi := ty + i
              if yi < n then
                some (load_ptr_batch Aa strideA b shifta + (tx : ℤ) + lda * (yi : ℤ),
                  alpha * xmem (load_ptr_batch xa stridex b shiftx + (tx : ℤ) * incx)
                    * cstar conjOp CONJ
                        (ymem (load_ptr_batch ya stridey b shifty + (yi : ℤ) * incy)))
              else none
          else []

/-- The `+=` writes performed on `A` by `rocblas_sger_kernel`
(`rocblas_ger_kernels.hpp` lines 187-252) for batch `b`: one block per
column `col < n`; after the `alpha == 0` early exit, thread `tx` runs
`for(i = 0; tx + i < m; i += DIM_X)` — visiting exactly the rows `r < m`
with `r % DIM_X = tx` — adding `(y[col*incy]*alpha) * x[r*incx]` to
`A[r + col*lda]`. -/
def rocblas_sger_kernel_writes {R : Type} [CommRing R] [DecidableEq R]
    (DIMX : ℕ) (m n : ℕ) (alpha : R)
    (xmem : ℤ → R) (xa shiftx incx stridex : ℤ)
    (ymem : ℤ → R) (ya shifty incy stridey : ℤ)
    (Aa shifta lda strideA : ℤ) (b : ℕ) : List (ℤ × R) :=
  if alpha = 0 then []
  else
    (List.range n).flatMap fun col =>
      (List.range DIMX).flatMap fun tx =>
        ((List.range m).filter (fun r => r % DIMX = tx)).map fun (r : ℕ) =>
          (load_ptr_batch Aa strideA b shifta + (r : ℤ) + (col : ℤ) * lda,
            ymem (load_ptr_batch ya stridey b shifty + (col : ℤ) * incy) * alpha
              * xmem (load_ptr_batch xa stridex b shiftx + (r : ℤ) * incx))

/-- The `+=` writes performed on `A` by `rocblas_sger_gfx942_kernel`
(`rocblas_ger_kernels.hpp` lines 122-185) for batch `b`: grid
`(gridX, n, batch_count)` with `gridX = ceil(m/(DIM_X*2))`; after the
`alpha == 0` early exit, thread `t` of block `(blk, col)` handles rows
`tx = (blk*DIM_X + t)*2` and `tx+1`: when `m` is odd and `tx+1 == m` the
last row alone is updated, when `tx+1 < m` both rows are updated, each by
`(y[col*incy]*alpha) * x[row*incx]` (the kernel reads `A`, adds, and stores
the sum back — an accumulation). -/
def rocblas_sger_gfx942_kernel_writes {R : Type} [CommRing R] [DecidableEq R]
    (DIMX gridX : ℕ) (m n : ℕ) (alpha : R)
    (xmem : ℤ → R) (xa shiftx incx stridex : ℤ)
    (ymem : ℤ → R) (ya shifty incy stridey : ℤ)
    (Aa shifta lda strideA : ℤ) (b : ℕ) : List (ℤ × R) :=
  if alpha = 0 then []
  else
    (List.range gridX).flatMap fun blk =>
      (List.range n).flatMap fun col =>
        (List.range DIMX).flatMap fun t =>
          let tx := (blk * DIMX + t) * 2
          let reg_y := ymem (load_ptr_batch ya stridey b shifty + (col : ℤ) * incy) * alpha
          (if m % 2 ≠ 0 ∧ tx + 1 = m then
            [(load_ptr_batch Aa strideA b shifta + (tx : ℤ) + (col : ℤ) * lda,
              reg_y * xmem (load_ptr_batch xa stridex b shiftx + (tx : ℤ) * incx))]
          else []) ++
          (if tx + 1 < m then
            [(load_ptr_batch Aa strideA b shifta + (tx : ℤ) + (col : ℤ) * lda,
              reg_y * xmem (load_ptr_batch xa stridex b shiftx + (tx : ℤ) * incx)),
             (load_ptr_batch Aa strideA b shifta + ((tx + 1 : ℕ) : ℤ) + (col : ℤ) * lda,
              reg_y * xmem (load_ptr_batch xa stridex b shiftx + ((tx + 1 : ℕ) : ℤ) * incx))]
          else [])

/-- The `+=` writes performed on `A` by `rocblas_ger_double_buffered_kernel`
(`rocblas_ger_kernels.hpp` lines 254-372) for batch `b`: grid
`(m/DIM_X, n/DIM_X, batches)`; the kernel resolves the batch pointers and
then exits before reading any element of `x`, `y` or `A` when the batch's
effective `alpha` is zero (lines 306-313).  Thread `(tx, ty)` of block
`(bx, by)` re-indexes itself as `tx_ = td % (DIM_X/2)`,
`ty_ = td / (DIM_X/2)` with `td = DIM_X*ty + tx` and updates, for each
`k < elements_per_thread`, the upper row `bx*DIM_X + tx_` and the lower row
`bx*DIM_X + DIM_X/2 + tx_` of column `by*DIM_X + ty_*elements_per_thread + k`
by `(x[row*incx]*alpha) * (CONJ ? conj(y[col*incy]) : y[col*incy])`
(double-buffered loads, then read-add-store — an accumulation). -/
def rocblas_ger_double_buffered_kernel_writes {R : Type} [CommRing R] [DecidableEq R]
    (conjOp : R → R) (CONJ : Bool) (DIMX DIMY ept gX gY : ℕ) (m n : ℕ) (alpha : R)
    (xmem : ℤ → R) (xa shiftx incx stridex : ℤ)
    (ymem : ℤ → R) (ya shifty incy stridey : ℤ)
    (Aa shifta lda strideA : ℤ) (b : ℕ) : List (ℤ × R) :=
  if alpha = 0 then []
  else
    (List.range gX).flatMap fun bx =>
      (List.range gY).flatMap fun gy =>
        (List.range DIMX).flatMap fun tx =>
          (List.range DIMY).flatMap fun ty =>
            let td := DIMX * ty + tx
            let txh := td % (DIMX / 2)
            let tyh := td / (DIMX / 2)
            let Abase := load_ptr_batch Aa strideA b shifta
              + ((DIMX * bx : ℕ) : ℤ) + ((gy * DIMX : ℕ) : ℤ) * lda
            let xu := xmem (load_ptr_batch xa stridex b shiftx
              + ((bx * DIMX + txh : ℕ) : ℤ) * incx) * alpha
            let xl := xmem (load_ptr_batch xa stridex b shiftx
              + ((bx * DIMX + DIMX / 2 + txh : ℕ) : ℤ) * incx) * alpha
            let yv : ℕ → R := fun k =>
              cstar conjOp CONJ (ymem (load_ptr_batch ya stridey b shifty
                + ((gy * DIMX + tyh * ept + k : ℕ) : ℤ) * incy))
            ((List.range ept).map fun (k : ℕ) =>
              (Abase + ((tyh * ept : ℕ) : ℤ) * lda + (txh : ℤ) + (k : ℤ) * lda,
                xu * yv k)) ++
            ((List.range ept).map fun (k : ℕ) =>
              (Abase + ((DIMX / 2 : ℕ) : ℤ) + ((tyh * ept : ℕ) : ℤ) * lda + (txh : ℤ)
                  + (k : ℤ) * lda,
                xl * yv k))

/-- The writes performed on `A` for batch `b` by the kernel selected by
`rocblas_internal_ger_launcher` (`rocblas_ger_kernels.hpp` lines 374-525),
given the already-shifted base offsets, with the per-path tile constants of
lines 427-429, 468-469, 486 and 502-507, and the per-batch effective
`alpha` (`load_scalar(alpha, batch, stride_alpha)` in device pointer mode,
the dereferenced host scalar otherwise; not under `src/`, modelled from the
spec §3 as a per-batch resolved value `alphaFn`). -/
def rocblas_internal_ger_writes_shifted {R : Type} [CommRing R] [DecidableEq R]
    (conjOp : R → R) (CONJ : Bool) (t : GerElem) (hd : Handle) (m n : ℕ)
    (alphaFn : ℕ → R)
    (xmem : ℤ → R) (xa shiftx incx stridex : ℤ)
    (ymem : ℤ → R) (ya shifty incy stridey : ℤ)
    (Aa offsetA lda strideA : ℤ) (b : ℕ) : List (ℤ × R) :=
  match rocblas_internal_ger_dispatch t hd m n with
  | .doubleBuffered =>
    let DIMX := if t = .f32 then 128 else 64
    let DIMY := if t = .f32 then 8 else 16
    rocblas_ger_double_buffered_kernel_writes conjOp CONJ DIMX DIMY
      (DIMX / (2 * DIMY)) (m / DIMX) (n / DIMX) m n (alphaFn b)
      xmem xa shiftx incx stridex ymem ya shifty incy stridey
      Aa offsetA lda strideA b
  | .sgerGfx942 =>
    rocblas_sger_gfx942_kernel_writes 256 ((m - 1) / (256 * 2) + 1) m n (alphaFn b)
      xmem xa shiftx incx stridex ymem ya shifty incy stridey
      Aa offsetA lda strideA b
  | .sger =>
    rocblas_sger_kernel_writes 1024 m n (alphaFn b)
      xmem xa shiftx incx stridex ymem ya shifty incy stridey
      Aa offsetA lda strideA b
  | .generic =>
    rocblas_ger_kernel_writes conjOp CONJ 32 32 2
      (((m - 1) / 32 + 1) * ((n - 1) / (32 * 2) + 1)) m n (alphaFn b)
      xmem xa shiftx incx stridex ymem ya shifty incy stridey
      Aa offsetA lda strideA b

/-- The per-batch writes of `rocblas_internal_ger_launcher` with the
negative-increment pre-shifts of `rocblas_ger_kernels.hpp` lines 400-402
applied to the raw offsets: `x` is shifted with length `m`, `y` with
length `n`. -/
def rocblas_internal_ger_writes {R : Type} [CommRing R] [DecidableEq R]
    (conjOp : R → R) (CONJ : Bool) (t : GerElem) (hd : Handle) (m n : ℕ)
    (alphaFn : ℕ → R)
    (xmem : ℤ → R) (xa offsetx incx stridex : ℤ)
    (ymem : ℤ → R) (ya offsety incy stridey : ℤ)
    (Aa offsetA lda strideA : ℤ) (b : ℕ) : List (ℤ × R) :=
  rocblas_internal_ger_writes_shifted conjOp CONJ t hd m n alphaFn
    xmem xa (negShift offsetx incx m) incx stridex
    ymem ya (negShift offsety incy n) incy stridey
    Aa offsetA lda strideA b

/-- `rocblas_internal_ger_launcher` (`rocblas_ger_kernels.hpp` lines
374-525): quick return on `!m || !n || !batch_count` (line 395), otherwise
the selected kernel's writes are applied to `A` for every batch, and the
status is success. -/
def rocblas_internal_ger_launcher {R : Type} [CommRing R] [DecidableEq R]
    (conjOp : R → R) (CONJ : Bool) (t : GerElem) (hd : Handle) (m n : ℕ)
    (alphaFn : ℕ → R)
    (xmem : ℤ → R) (xa offsetx incx stridex : ℤ)
    (ymem : ℤ → R) (ya offsety incy stridey : ℤ)
    (Amem : ℤ → R) (Aa offsetA lda strideA : ℤ)
    (batch_count : ℕ) : RocblasStatus × (ℤ → R) :=
  if m = 0 ∨ n = 0 ∨ batch_count = 0 then (.success, Amem)
  else
    (.success,
      applyAdds Amem ((List.range batch_count).flatMap fun b =>
        rocblas_internal_ger_writes conjOp CONJ t hd m n alphaFn
          xmem xa offsetx incx stridex ymem ya offsety incy stridey
          Aa offsetA lda strideA b))

/-- The per-thread register accumulation `res_A[r]` of
`rocblas_gemvn_kernel_calc` (`src/reference/gemv/gemv_device.hpp` lines
952-1072) for thread `(tx, ty)` of block `bI` and register `r < 4` (the row
`ind + r*DIM_X`): the main loop iterates `col = ty*4 + kk*(4*DIM_Y)` for
`kk < n / (4*DIM_Y)` (exactly the iterations of
`for(col = ty*4; col < n - n_tail; col += 4*DIM_Y)`), accumulating the four
unrolled terms; the tail (lines 1011-1072) handles the exit column with the
boolean-guarded loads `res_x[s] = col+s < n ? x[(col+s)*incx] : 0` and the
boolean-multiplied addresses `A[ind + r*DIM_X + (col+s)*lda*(col+s < n)]`.
The nested row guards `ind < m`, `ind + DIM_X < m`, ... collapse to the
single condition `ind + r*DIM_X < m` for register `r`. -/
def gemvnResA {R : Type} [CommRing R] (DIMX DIMY : ℕ) (bI tx ty r : ℕ) (m n : ℕ)
    (A : ℤ → R) (lda : ℤ) (x : ℤ → R) (incx : ℤ) : R :=
  let ind := bI * (DIMX * 4) + tx
  if ind + r * DIMX < m then
    (∑ kk in Finset.range (n / (4 * DIMY)),
      ∑ s in Finset.range 4,
        A (((ind + r * DIMX : ℕ) : ℤ) + ((ty * 4 + kk * (4 * DIMY) + s : ℕ) : ℤ) * lda)
          * x (((ty * 4 + kk * (4 * DIMY) + s : ℕ) : ℤ) * incx))
    + (if n % (4 * DIMY) ≠ 0 then
        let col := ty * 4 + (n / (4 * DIMY)) * (4 * DIMY)
        ∑ s in Finset.range 4,
          A (((ind + r * DIMX : ℕ) : ℤ)
              + ((col + s : ℕ) : ℤ) * lda * (if col + s < n then 1 else 0))
            * (if col + s < n then x (((col + s : ℕ) : ℤ) * incx) else 0)
      else 0)
  else 0

/-- The reduced shared-memory sum read back by thread `thread_id = tid` of
`rocblas_gemvn_kernel_calc` (lines 1074-1084): `sdata[tid]` after the
cross-`ty` reduction, i.e. the sum over `ty < DIM_Y` of the register
`r = tid / DIM_X` of thread `(tid % DIM_X, ty)`. -/
def gemvnSdata {R : Type} [CommRing R] (DIMX DIMY : ℕ) (bI tid : ℕ) (m n : ℕ)
    (A : ℤ → R) (lda : ℤ) (x : ℤ → R) (incx : ℤ) : R :=
  ∑ ty in Finset.range DIMY,
    gemvnResA DIMX DIMY bI (tid % DIMX) ty (tid / DIMX) m n A lda x incx

/-- `rocblas_gemvn_kernel_calc` (`src/reference/gemv/gemv_device.hpp` lines
921-1093), over a grid of `gridX` blocks: the final logical contents of `y`
at logical row `ind` (the kernel stores to `y[ind * incy]`).  When
`alpha == 0` (lines 941-950) the rows `ind < m` covered by the grid are set
to `beta ? beta*y[ind*incy] : 0` before any load of `A` or `x`; otherwise
(lines 1081-1092) they are set to
`beta ? alpha*sdata[tid] + beta*y[ind*incy] : alpha*sdata[tid]`.  Rows not
covered keep their old value. -/
def rocblas_gemvn_kernel_calc_out {R : Type} [CommRing R] [DecidableEq R]
    (DIMX DIMY gridX : ℕ) (m n : ℕ) (alpha : R) (A : ℤ → R) (lda : ℤ)
    (x : ℤ → R) (incx : ℤ) (beta : R) (y : ℤ → R) (incy : ℤ) : ℕ → R :=
  fun ind =>
    if ind < m ∧ ind < gridX * (DIMX * 4) then
      if alpha = 0 then
        if beta = 0 then 0 else beta * y ((ind : ℤ) * incy)
      else
        let S := gemvnSdata DIMX DIMY (ind / (DIMX * 4)) (ind % (DIMX * 4)) m n A lda x incx
        if beta = 0 then alpha * S else alpha * S + beta * y ((ind : ℤ) * incy)
    else y ((ind : ℤ) * incy)

/-- The per-thread partial sum `res` of `rocblas_gemvt_kernel_calc`
(`src/reference/gemv/gemv_device.hpp` lines 1204-1222) for thread `tx` of
the block handling column `col`: `A` is advanced by `tx` only when `tx < m`
(line 1204-1205) and by `col*lda`; the loop adds
`(CONJ ? conj(A[i]) : A[i]) * x[(tx+i)*incx]` for `i = kk*NB_X`,
`kk < m / NB_X`, and the tail adds the `i = m_full` term when
`tx + m_full < m`. -/
def gemvtRes {R : Type} [CommRing R] (conjOp : R → R) (CONJ : Bool) (NBX : ℕ)
    (col : ℕ) (m : ℕ) (A : ℤ → R) (lda : ℤ) (x : ℤ → R) (incx : ℤ) (tx : ℕ) : R :=
  let Abase : ℤ := (if tx < m then (tx : ℤ) else 0) + (col : ℤ) * lda
  let m_full := (m / NBX) * NBX
  (∑ kk in Finset.range (m / NBX),
    cstar conjOp CONJ (A (Abase + ((kk * NBX : ℕ) : ℤ)))
      * x (((tx + kk * NBX : ℕ) : ℤ) * incx))
  + (if tx + m_full < m then
      cstar conjOp CONJ (A (Abase + ((m_full : ℕ) : ℤ)))
        * x (((tx + m_full : ℕ) : ℤ) * incx)
    else 0)

/-- The reduced value `sdata[0]` of `rocblas_gemvt_kernel_calc` (lines
1222-1240): the tree reduction `rocblas_sum_reduce<NB_X>` (not under `src/`,
modelled from the spec §4.1 as the sum of all `NB_X` lanes) when
`NB_X > 16`, otherwise the sequential loop
`for(i = 1; i < m && i < NB_X; i++) sdata[0] += sdata[i]`. -/
def gemvtSdata0 {R : Type} [CommRing R] (conjOp : R → R) (CONJ : Bool) (NBX : ℕ)
    (col : ℕ) (m : ℕ) (A : ℤ → R) (lda : ℤ) (x : ℤ → R) (incx : ℤ) : R :=
  if 16 < NBX then
    ∑ tx in Finset.range NBX, gemvtRes conjOp CONJ NBX col m A lda x incx tx
  else
    gemvtRes conjOp CONJ NBX col m A lda x incx 0
      + ∑ tx in Finset.Ico 1 (min m NBX), gemvtRes conjOp CONJ NBX col m A lda x incx tx

/-- `rocblas_gemvt_kernel_calc` (`src/reference/gemv/gemv_device.hpp` lines
1181-1248), over a grid of `gridX` blocks (one block per column): the final
logical contents of `y` at logical position `col` (stored at
`y[col * incy]`).  When `alpha == 0` (lines 1197-1202) thread 0 sets
`y[col*incy] = beta ? beta*y[col*incy] : 0` and the block returns before any
load of `A` or `x`; otherwise (lines 1242-1247) the column's reduced dot
product is applied. -/
def rocblas_gemvt_kernel_calc_out {R : Type} [CommRing R] [DecidableEq R]
    (conjOp : R → R) (CONJ : Bool) (NBX gridX : ℕ) (n m : ℕ) (alpha : R)
    (A : ℤ → R) (lda : ℤ) (x : ℤ → R) (incx : ℤ) (beta : R) (y : ℤ → R)
    (incy : ℤ) : ℕ → R :=
  fun col =>
    if col < n ∧ col < gridX then
      if alpha = 0 then
        if beta = 0 then 0 else beta * y ((col : ℤ) * incy)
      else
        let S := gemvtSdata0 conjOp CONJ NBX col m A lda x incx
        if beta = 0 then alpha * S else alpha * S + beta * y ((col : ℤ) * incy)
    else y ((col : ℤ) * incy)

/-- `std::real(z)` promoted back to a complex value, as used by the Hermitian
kernels when multiplying a main-diagonal element: only the real part of the
stored value enters the product. -/
def giReal (z : GaussianInt) : GaussianInt := ⟨z.re, 0⟩

/-- `conj(z)` on Gaussian integers, as applied by the Hermitian kernels to
elements read from the opposite triangle. -/
def giConj (z : GaussianInt) : GaussianInt := ⟨z.re, -z.im⟩

/-- `rocblas_hbmvn_kernel_helper` (`src/reference/hbmv/rocblas_hbmv_kernels.cpp`
lines 32-95) for thread column-phase `ty < DIM_Y` and row `ind`: the loop
`for(col = ty; col < m; col += DIM_Y)` visits exactly the `col < m` with
`col % DIM_Y = ty`; per column the banded row is
`row = is_upper ? ind + (k - col) : ind - col` (signed), the own-triangle
branches read `A[row + col*lda]` (taking only the real part on the main
diagonal, lines 63-79), the opposite-triangle branch reads the conjugate at
the transposed banded position (lines 81-91), and out-of-band positions
contribute nothing. -/
def rocblas_hbmvn_kernel_helper (DIMY : ℕ) (ty ind : ℕ) (is_upper : Bool)
    (m k : ℕ) (A : ℤ → GaussianInt) (lda : ℤ) (x : ℤ → GaussianInt)
    (incx : ℤ) : GaussianInt :=
  ∑ col in (Finset.range m).filter (fun c => c % DIMY = ty),
    (if ind < m then
      if (ind ≤ col ∧ is_upper) ∨ (col ≤ ind ∧ ¬is_upper) then
        let row : ℤ := if is_upper then (ind : ℤ) + ((k : ℤ) - col) else (ind : ℤ) - col
        if row < k ∧ 0 < row then
          A (row + (col : ℤ) * lda) * x ((col : ℤ) * incx)
        else if row = 0 then
          if ¬is_upper ∨ (k = 0 ∧ is_upper) then
            giReal (A (row + (col : ℤ) * lda)) * x ((col : ℤ) * incx)
          else A (row + (col : ℤ) * lda) * x ((col : ℤ) * incx)
        else if row = (k : ℤ) then
          if is_upper then
            giReal (A (row + (col : ℤ) * lda)) * x ((col : ℤ) * incx)
          else A (row + (col : ℤ) * lda) * x ((col : ℤ) * incx)
        else 0
      else
        let trans_row : ℤ :=
          if is_upper then (col : ℤ) + ((k : ℤ) - ind) else (col : ℤ) - ind
        if trans_row ≤ k ∧ 0 ≤ trans_row then
          giConj (A (trans_row + (ind : ℤ) * lda)) * x ((col : ℤ) * incx)
        else 0
    else 0)

/-- The matrix element the spec assigns to logical position `(i, j)` of a
Hermitian banded matrix.  Modelled from the spec §4.4: the stored row is
`row = upper ? i + (k - j) : i - j` for a position in the stored triangle
(read at `A[row + j*lda]`, out-of-band rows are zero), the opposite triangle
is the conjugate of the transposed position, and a main-diagonal element is
always treated as having zero imaginary part regardless of the stored
value. -/
def hermBandedEntry (is_upper : Bool) (k : ℕ) (A : ℤ → GaussianInt) (lda : ℤ)
    (i j : ℕ) : GaussianInt :=
  if (is_upper ∧ i ≤ j) ∨ (¬is_upper ∧ j ≤ i) then
    let row : ℤ := if is_upper then (i : ℤ) + ((k : ℤ) - j) else (i : ℤ) - j
    if 0 ≤ row ∧ row ≤ k then
      if i = j then giReal (A (row + (j : ℤ) * lda))
      else A (row + (j : ℤ) * lda)
    else 0
  else
    let row : ℤ := if is_upper then (j : ℤ) + ((k : ℤ) - i) else (j : ℤ) - i
    if 0 ≤ row ∧ row ≤ k then giConj (A (row + (i : ℤ) * lda)) else 0

/-- The register accumulation `res_A` of `rocblas_hpmv_kernel_calc`
(`src/reference/hpmv/rocblas_hpmv_kernels.cpp` lines 62-100) for thread
column-phase `ty < DIM_Y` and row `ind`: the loop
`for(col = ty; col < n; col += DIM_Y)` visits exactly the `col < n` with
`col % DIM_Y = ty`; a position in the opposite triangle swaps
`(ind_x, ind_y)` and conjugates; the packed index is
`is_upper ? ind_y*(ind_y+1)/2 + ind_x : ind_y*(2n-ind_y+1)/2 + (ind_x-ind_y)`
(lines 91-93); a main-diagonal element enters through `std::real`. -/
def rocblas_hpmv_kernel_calc_res (DIMY : ℕ) (ty ind : ℕ) (is_upper : Bool)
    (n : ℕ) (AP : ℤ → GaussianInt) (x : ℤ → GaussianInt) (incx : ℤ) : GaussianInt :=
  ∑ col in (Finset.range n).filter (fun c => c % DIMY = ty),
    (if ind < n then
      let swap : Bool := (col < ind ∧ is_upper) ∨ (ind < col ∧ ¬is_upper)
      let ix : ℕ := if swap then col else ind
      let iy : ℕ := if swap then ind else col
      let index : ℤ :=
        if is_upper then ((iy : ℤ) * ((iy : ℤ) + 1)) / 2 + (ix : ℤ)
        else ((iy : ℤ) * (2 * (n : ℤ) - (iy : ℤ) + 1)) / 2 + ((ix : ℤ) - (iy : ℤ))
      (if ix = iy then giReal (AP index)
       else if swap then giConj (AP index)
       else AP index) * x ((col : ℤ) * incx)
    else 0)

/-- The matrix element the spec assigns to logical position `(i, j)` of a
packed Hermitian matrix.  Modelled from the spec §4.4: for a position in the
stored triangle the packed index is
`upper : j*(j+1)/2 + i` / `lower : j*(2n-j+1)/2 + (i-j)`; the opposite
triangle is the conjugate of the transposed position; a main-diagonal
element is always treated as having zero imaginary part. -/
def packedHermEntry (is_upper : Bool) (n : ℕ) (AP : ℤ → GaussianInt)
    (i j : ℕ) : GaussianInt :=
  if (is_upper ∧ i ≤ j) ∨ (¬is_upper ∧ j ≤ i) then
    let index : ℤ :=
      if is_upper then ((j : ℤ) * ((j : ℤ) + 1)) / 2 + (i : ℤ)
      else ((j : ℤ) * (2 * (n : ℤ) - (j : ℤ) + 1)) / 2 + ((i : ℤ) - (j : ℤ))
    if i = j then giReal (AP index) else AP index
  else
    let index : ℤ :=
      if is_upper then ((i : ℤ) * ((i : ℤ) + 1)) / 2 + (j : ℤ)
      else ((i : ℤ) * (2 * (n : ℤ) - (i : ℤ) + 1)) / 2 + ((j : ℤ) - (i : ℤ))
    giConj (AP index)

/-- The device-side kernel and kernel-helper functions defined in the
repository's source files (`src/reference/dot/rocblas_dot_kernels.hpp`,
`src/reference/ger/rocblas_ger_kernels.hpp`,
`src/reference/gemv/gemv_device.hpp`,
`src/reference/hbmv/rocblas_hbmv_kernels.cpp`,
`src/reference/hpmv/rocblas_hpmv_kernels.cpp`,
`src/reference/sbmv/rocblas_sbmv_kernels.cpp`,
`src/reference/tbmv/rocblas_tbmv_kernels.cpp`,
`src/reference/syr2/rocblas_syr2_kernels.cpp`). -/
inductive SrcKernel
  | dot_kernel_inc1
  | dot_kernel_inc1by2
  | dot_kernel
  | dot_kernel_gfx942_float_double
  | dot_kernel_magsq
  | dot_batched_4_kernel
  | dot_save_sum
  | ger_kernel
  | sger_gfx942_kernel
  | sger_kernel
  | ger_double_buffered_kernel
  | gemv_scal_kernel_calc
  | gemv_scal_kernel
  | gemvn_double_buffered_kernel_calc
  | gemvn_double_buffered_kernel
  | gemvt_double_buffered_kernel_calc
  | gemvt_double_buffered_kernel
  | gemvn_kernel_calc
  | gemvn_kernel_calc_double_complex
  | gemvn_kernel
  | gemvt_kernel_calc
  | gemvt_kernel
  | gemvt_reduce_kernel_calc
  | gemvt_warp_reduce_kernel
  | gemvt_sn_kernel_calc
  | gemvt_sn_kernel
  | gemvt_sn_reduce_calc
  | gemvt_sn_reduce
  | gemvt_row_vectorized_kernel_calc
  | gemvt_row_vectorized_kernel
  | gemvtsm_kernel_calc
  | gemvtsm_kernel
  | gemv_sm_mn_batched_kernel_calc
  | gemvn_sm_mn_batched_kernel
  | hbmvn_kernel_helper
  | hbmvn_kernel_calc
  | hbmvn_kernel
  | hpmv_kernel_calc
  | hpmv_kernel
  | sbmv_kernel_helper
  | sbmv_kernel_calc
  | sbmv_kernel
  | tbmvn_kernel_helper
  | tbmvt_kernel_helper
  | tbmvx_kernel_calc
  | tbmvx_kernel
  | syr2_kernel_calc
  | syr2_kernel
deriving DecidableEq, Fintype

/-- Whether the kernel performs a hardware atomic add (`atomicAdd`): true
exactly for the two occurrences in the repository,
`rocblas_gemvn_double_buffered_kernel_calc`
(`src/reference/gemv/gemv_device.hpp` line 818) and
`rocblas_gemvt_double_buffered_kernel_calc` (same file, line 917); no other
source file contains `atomicAdd`. -/
def usesAtomicAdd : SrcKernel → Bool
  | .gemvn_double_buffered_kernel_calc => true
  | .gemvt_double_buffered_kernel_calc => true
  | _ => false

/-! ## Core reduction lemmas -/

section CoreLemmas

variable {R : Type} [CommRing R]

/-- The fuelled per-thread loop sums exactly the in-range strided indices:
the exit condition `i < n` is antitone along the iteration because the index
only grows. -/
theorem dotLoop_eq_sum (f : ℕ → R) (n inc : ℕ) :
    ∀ (W i0 : ℕ), dotLoop f n inc W i0
      = ∑ j in Finset.range W, if i0 + j * inc < n then f (i0 + j * inc) else 0 := by
  intro W
  induction W with
  | zero => intro i0; simp [dotLoop]
  | succ W ih =>
    intro i0
    rw [Finset.sum_range_succ' (fun j => if i0 + j * inc < n then f (i0 + j * inc) else 0) W]
    by_cases h0 : i0 < n
    · have : ∀ j, i0 + (j + 1) * inc = (i0 + inc) + j * inc := by intro j; ring
      simp only [dotLoop, h0, if_true, ih (i0 + inc), this, Nat.zero_mul, Nat.add_zero]
      ring
    · have hz : ∀ j : ℕ, ¬(i0 + (j + 1) * inc < n) := by
        intro j hlt
        exact h0 (lt_of_le_of_lt (Nat.le_add_right _ _) hlt)
      simp only [dotLoop, h0, if_false]
      rw [Finset.sum_congr rfl fun j _ => if_neg (hz j)]
      simp [h0]

/-- Flattening a block/thread grid: summing over `bk < B` and `t < NB` of
`h (bk*NB + t)` is the sum over all global ids below `B*NB`. -/
theorem sum_grid_flatten (B NB : ℕ) (h : ℕ → R) :
    ∑ bk in Finset.range B, ∑ t in Finset.range NB, h (bk * NB + t)
      = ∑ g in Finset.range (B * NB), h g := by
  induction B with
  | zero => simp
  | succ B ih =>
    rw [Finset.sum_range_succ, ih, Nat.succ_mul, Finset.sum_range_add]

/-- The grid-strided interleaving covers `[0, n)` exactly once: summing the
guarded terms `f (g + j*G)` over threads `g < G` and window slots `j < W`
equals the plain sum over `[0, n)`, provided the grid capacity `G*W` covers
`n`. -/
theorem sum_interleave (G W n : ℕ) (hG : 0 < G) (hn : n ≤ G * W) (f : ℕ → R) :
    ∑ g in Finset.range G, ∑ j in Finset.range W,
        (if g + j * G < n then f (g + j * G) else 0)
      = ∑ i in Finset.range n, f i := by
  rw [← Finset.sum_product']
  rw [← Finset.sum_filter (fun p : ℕ × ℕ => p.1 + p.2 * G < n)
    (fun p : ℕ × ℕ => f (p.1 + p.2 * G))]
  refine Finset.sum_nbij' (fun p : ℕ × ℕ => p.1 + p.2 * G)
    (fun i => (i % G, i / G)) ?_ ?_ ?_ ?_ ?_
  · intro p hp
    rw [Finset.mem_filter] at hp
    exact Finset.mem_range.2 hp.2
  · intro i hi
    rw [Finset.mem_range] at hi
    rw [Finset.mem_filter, Finset.mem_product, Finset.mem_range, Finset.mem_range]
    refine ⟨⟨Nat.mod_lt _ hG, ?_⟩, ?_⟩
    · exact Nat.div_lt_of_lt_mul (lt_of_lt_of_le hi hn)
    · rw [Nat.mod_add_div']
      exact hi
  · intro p hp
    rw [Finset.mem_filter, Finset.mem_product, Finset.mem_range, Finset.mem_range] at hp
    obtain ⟨⟨h1, _⟩, _⟩ := hp
    have hmod : (p.1 + p.2 * G) % G = p.1 := by
      rw [Nat.add_mul_mod_self_right, Nat.mod_eq_of_lt h1]
    have hdiv : (p.1 + p.2 * G) / G = p.2 := by
      rw [Nat.add_mul_div_right _ _ hG, Nat.div_eq_of_lt h1, Nat.zero_add]
    simp [hmod, hdiv]
  · intro i _
    simp [Nat.mod_add_div']
  · intro p _
    rfl

end CoreLemmas

section CoreLemmas2

variable {R : Type} [CommRing R]

/-- The paired loop's accumulated sum, as a guarded window sum. -/
theorem by2Loop_fst (f : ℕ → R) (n inc : ℕ) :
    ∀ (W i0 : ℕ), (by2Loop f n inc W i0).1
      = ∑ j in Finset.range W,
          if i0 + j * inc + 1 < n then f (i0 + j * inc) + f (i0 + j * inc + 1) else 0 := by
  intro W
  induction W with
  | zero => intro i0; simp [by2Loop]
  | succ W ih =>
    intro i0
    rw [Finset.sum_range_succ'
      (fun j => if i0 + j * inc + 1 < n then f (i0 + j * inc) + f (i0 + j * inc + 1) else 0) W]
    by_cases h0 : i0 + 1 < n
    · have harg : ∀ j, i0 + (j + 1) * inc = (i0 + inc) + j * inc := by intro j; ring
      simp only [by2Loop, h0, if_true, ih (i0 + inc), harg, Nat.zero_mul, Nat.add_zero]
      ring
    · have hz : ∀ j : ℕ, ¬(i0 + (j + 1) * inc + 1 < n) := by
        intro j hlt
        exact h0 (by omega)
      simp only [by2Loop, h0, if_false]
      rw [Finset.sum_congr rfl fun j _ => if_neg (hz j)]
      simp [h0]

/-- The paired loop's exit index: the start plus `inc` times the number of
completed iterations. -/
theorem by2Loop_snd (f : ℕ → R) (n inc : ℕ) :
    ∀ (W i0 : ℕ), (by2Loop f n inc W i0).2
      = i0 + inc * ∑ j in Finset.range W, (if i0 + j * inc + 1 < n then 1 else 0) := by
  intro W
  induction W with
  | zero => intro i0; simp [by2Loop]
  | succ W ih =>
    intro i0
    rw [Finset.sum_range_succ' (fun j => if i0 + j * inc + 1 < n then 1 else 0) W]
    by_cases h0 : i0 + 1 < n
    · have harg : ∀ j, i0 + (j + 1) * inc = (i0 + inc) + j * inc := by intro j; ring
      simp only [by2Loop, h0, if_true, ih (i0 + inc), harg, Nat.zero_mul, Nat.add_zero]
      ring
    · have hz : ∀ j : ℕ, ¬(i0 + (j + 1) * inc + 1 < n) := by
        intro j hlt
        exact h0 (by omega)
      simp only [by2Loop, h0, if_false]
      rw [Finset.sum_congr rfl fun j _ => if_neg (hz j)]
      simp [h0]

/-- Counting window slots below a cut-off. -/
theorem sum_ite_lt_one (K W : ℕ) (hKW : K ≤ W) :
    ∑ j in Finset.range W, (if j < K then (1 : ℕ) else 0) = K := by
  induction W with
  | zero => simp; omega
  | succ W ih =>
    rw [Finset.sum_range_succ]
    by_cases hK : K ≤ W
    · rw [ih hK, if_neg (by omega)]
      omega
    · have hKW1 : K = W + 1 := by omega
      subst hKW1
      rw [if_pos (by omega)]
      rw [Finset.sum_congr rfl fun j hj => if_pos (by
        have := Finset.mem_range.1 hj; omega)]
      simp

/-- For odd `n`, exactly the thread `g = ((n-1)/2) % G` exits the paired
loop at index `n - 1` (and so picks up the odd tail element). -/
theorem by2_exit_iff (f : ℕ → R) (n G W g : ℕ) (hG : 0 < G) (hgG : g < G)
    (hn : n ≤ 2 * G * W) (hodd : n % 2 = 1) :
    (by2Loop f n (2 * G) W (2 * g)).2 = n - 1 ↔ g = ((n - 1) / 2) % G := by
  set m := (n - 1) / 2 with hm
  have hn1 : n = 2 * m + 1 := by omega
  have hcond : ∀ j, (2 * g + j * (2 * G) + 1 < n) ↔ (g + j * G < m) := by
    intro j
    have hj2 : j * (2 * G) = 2 * (j * G) := by ring
    constructor <;> intro h <;> omega
  rw [by2Loop_snd]
  rw [Finset.sum_congr rfl fun j _ => if_congr (hcond j) rfl rfl]
  have hmGW : m < G * W := by
    have h2GW : 2 * G * W = 2 * (G * W) := by ring
    omega
  constructor
  · intro h
    have hgs : 2 * G * (∑ j in Finset.range W, (if g + j * G < m then 1 else 0))
        = 2 * (G * ∑ j in Finset.range W, (if g + j * G < m then 1 else 0)) := by ring
    have h2 : g + G * ∑ j in Finset.range W, (if g + j * G < m then 1 else 0) = m := by omega
    have h3 := congrArg (· % G) h2
    simpa [Nat.add_mul_mod_self_left, Nat.mod_eq_of_lt hgG] using h3
  · intro h
    subst h
    have hcut : ∀ j, (m % G + j * G < m) ↔ (j < m / G) := by
      intro j
      constructor <;> intro hj
      · by_contra hge
        push_neg at hge
        have : m / G * G ≤ j * G := Nat.mul_le_mul_right _ hge
        have hmm := Nat.mod_add_div' m G
        omega
      · have : j * G + G ≤ m / G * G := by
          have : j + 1 ≤ m / G := hj
          calc j * G + G = (j + 1) * G := by ring
          _ ≤ m / G * G := Nat.mul_le_mul_right _ this
        have hmm := Nat.mod_add_div' m G
        omega
    rw [Finset.sum_congr rfl fun j _ => if_congr (hcut j) rfl rfl]
    rw [sum_ite_lt_one (m / G) W (le_of_lt (Nat.div_lt_of_lt_mul (by omega)))]
    have hmm := Nat.mod_add_div' m G
    have hcomm : 2 * G * (m / G) = 2 * (m / G * G) := by ring
    omega

/-- Summing the odd-tail contributions over all threads yields exactly one
copy of `f (n-1)` when `n` is odd. -/
theorem by2_tail_sum (f : ℕ → R) (n G W : ℕ) (hG : 0 < G) (hn : n ≤ 2 * G * W) :
    ∑ g in Finset.range G,
        (if n % 2 = 1 ∧ (by2Loop f n (2 * G) W (2 * g)).2 = n - 1 then f (n - 1) else 0)
      = if n % 2 = 1 then f (n - 1) else 0 := by
  by_cases hodd : n % 2 = 1
  · rw [Finset.sum_congr rfl fun g hg => if_congr
      (by
        have hgG := Finset.mem_range.1 hg
        rw [by2_exit_iff f n G W g hG hgG hn hodd, and_iff_right hodd]) rfl rfl]
    rw [Finset.sum_ite_eq' (Finset.range G) (((n - 1) / 2) % G) (fun _ => f (n - 1))]
    rw [if_pos (Finset.mem_range.2 (Nat.mod_lt _ hG)), if_pos hodd]
  · rw [Finset.sum_congr rfl fun g _ => if_neg (by simp [hodd])]
    simp [hodd]

/-- Unfolding consecutive pairs. -/
theorem sum_pairs (f : ℕ → R) (P : ℕ) :
    ∑ p in Finset.range P, (f (2 * p) + f (2 * p + 1)) = ∑ i in Finset.range (2 * P), f i := by
  induction P with
  | zero => simp
  | succ P ih =>
    rw [Finset.sum_range_succ, ih, show 2 * (P + 1) = 2 * P + 1 + 1 by ring,
      Finset.sum_range_succ, Finset.sum_range_succ]
    ring

/-- The grid total of the 2-way vectorized kernel body: pair sums plus the
odd tail cover `[0, n)` exactly once. -/
theorem by2_grid (f : ℕ → R) (n G W : ℕ) (hG : 0 < G) (hn : n ≤ 2 * G * W) :
    ∑ g in Finset.range G,
        ((by2Loop f n (2 * G) W (2 * g)).1
          + (if n % 2 = 1 ∧ (by2Loop f n (2 * G) W (2 * g)).2 = n - 1 then f (n - 1) else 0))
      = ∑ i in Finset.range n, f i := by
  rw [Finset.sum_add_distrib, by2_tail_sum f n G W hG hn]
  have hfst : ∑ g in Finset.range G, (by2Loop f n (2 * G) W (2 * g)).1
      = ∑ p in Finset.range (n / 2), (f (2 * p) + f (2 * p + 1)) := by
    rw [Finset.sum_congr rfl fun g _ => by2Loop_fst f n (2 * G) W (2 * g)]
    have hcongr : ∀ g ∈ Finset.range G, ∑ j in Finset.range W,
          (if 2 * g + j * (2 * G) + 1 < n then f (2 * g + j * (2 * G)) + f (2 * g + j * (2 * G) + 1) else 0)
        = ∑ j in Finset.range W,
          (if g + j * G < n / 2 then f (2 * (g + j * G)) + f (2 * (g + j * G) + 1) else 0) := by
      intro g _
      refine Finset.sum_congr rfl fun j _ => ?_
      have harg : 2 * g + j * (2 * G) = 2 * (g + j * G) := by ring
      rw [harg]
      exact if_congr (by omega) rfl rfl
    rw [Finset.sum_congr rfl hcongr]
    exact sum_interleave G W (n / 2) hG
      (by
        have h2 : 2 * G * W = 2 * (G * W) := mul_assoc 2 G W
        omega)
      (fun p => f (2 * p) + f (2 * p + 1))
  rw [hfst, sum_pairs]
  by_cases hodd : n % 2 = 1
  · rw [if_pos hodd]
    have h2 : 2 * (n / 2) + 1 = n := by omega
    calc ∑ i in Finset.range (2 * (n / 2)), f i + f (n - 1)
        = ∑ i in Finset.range (2 * (n / 2)), f i + f (2 * (n / 2)) := by
          rw [show n - 1 = 2 * (n / 2) by omega]
      _ = ∑ i in Finset.range (2 * (n / 2) + 1), f i := (Finset.sum_range_succ f _).symm
      _ = ∑ i in Finset.range n, f i := by rw [h2]
  · rw [if_neg hodd, show 2 * (n / 2) = n by omega, add_zero]

end CoreLemmas2

section CoreLemmas3

variable {R : Type} [CommRing R]

/-- For an in-range thread id, both branches of the gfx942 kernel body sum
exactly the in-range members of its four-slot window. -/
theorem gfx942Thread_eq (f : ℕ → R) (n G g : ℕ) (hgG : g < G) :
    gfx942Thread f n G g
      = ∑ j in Finset.range 4, (if g + j * G < n then f (g + j * G) else 0) := by
  have t4 : gfx942TailLoop f n G 4 g
      = if g < 4 * G ∧ g < n then f g + gfx942TailLoop f n G 3 (g + G) else 0 := rfl
  have t3 : gfx942TailLoop f n G 3 (g + G)
      = if g + G < 4 * G ∧ g + G < n then
          f (g + G) + gfx942TailLoop f n G 2 (g + G + G) else 0 := rfl
  have t2 : gfx942TailLoop f n G 2 (g + G + G)
      = if g + G + G < 4 * G ∧ g + G + G < n then
          f (g + G + G) + gfx942TailLoop f n G 1 (g + G + G + G) else 0 := rfl
  have t1 : gfx942TailLoop f n G 1 (g + G + G + G)
      = if g + G + G + G < 4 * G ∧ g + G + G + G < n then
          f (g + G + G + G) + gfx942TailLoop f n G 0 (g + G + G + G + G) else 0 := rfl
  have t0 : gfx942TailLoop f n G 0 (g + G + G + G + G) = 0 := rfl
  have e0 : g + 0 * G = g := by ring
  have e1 : g + 1 * G = g + G := by ring
  rw [Finset.sum_range_succ, Finset.sum_range_succ, Finset.sum_range_succ,
    Finset.sum_range_succ, Finset.sum_range_zero, e0, e1]
  unfold gfx942Thread
  rw [t4, t3, t2, t1, t0]
  have e2 : g + 2 * G = g + G + G := by ring
  have e3 : g + 3 * G = g + G + G + G := by ring
  rw [e2, e3]
  split_ifs <;> first | (exfalso; omega) | abel

/-- The grid total of the gfx942 kernel covers `[0, n)` exactly once. -/
theorem gfx942_grid (f : ℕ → R) (n G : ℕ) (hG : 0 < G) (hn : n ≤ 4 * G) :
    ∑ g in Finset.range G, gfx942Thread f n G g = ∑ i in Finset.range n, f i := by
  rw [Finset.sum_congr rfl fun g hg => gfx942Thread_eq f n G g (Finset.mem_range.1 hg)]
  exact sum_interleave G 4 n hG (by omega) f

/-- The lane-strided loop of the small-n/high-batch kernel partitions
`[0, n)` by residue class. -/
theorem batched4_cover (f : ℕ → R) (n W : ℕ) (hW : 0 < W) :
    ∑ t in Finset.range W, ∑ i in (Finset.range n).filter (fun i => i % W = t), f i
      = ∑ i in Finset.range n, f i :=
  Finset.sum_fiberwise_of_maps_to (fun i _ => Finset.mem_range.2 (Nat.mod_lt i hW)) f

/-- The composition of phase 1 (per-block partial sums of the window loop)
and phase 2 (summing the partials) covers `[0, n)` exactly once. -/
theorem dot_grid_sum_eq (blocks NB W n : ℕ) (f : ℕ → R) (hNB : 0 < NB)
    (hblocks : 0 < blocks) (hn : n ≤ NB * blocks * W) :
    ∑ bk in Finset.range blocks,
        rocblas_dot_block_reduce NB (fun t => dotLoop f n (NB * blocks) W (bk * NB + t))
      = ∑ i in Finset.range n, f i := by
  unfold rocblas_dot_block_reduce
  rw [sum_grid_flatten blocks NB (fun g => dotLoop f n (NB * blocks) W g)]
  rw [Finset.sum_congr rfl fun g _ => dotLoop_eq_sum f n (NB * blocks) W g]
  rw [show blocks * NB = NB * blocks from Nat.mul_comm blocks NB]
  exact sum_interleave (NB * blocks) W n (Nat.mul_pos hNB hblocks) hn f

end CoreLemmas3

section KernelLemmas

variable {R : Type} [CommRing R]

theorem rocblas_dot_WIN_pos (t : ElemType) : 0 < rocblas_dot_WIN t := by
  cases t <;> decide

theorem rocblas_reduction_kernel_block_count_pos (n k : ℕ) (hn : 0 < n) (hk : 0 < k) :
    0 < rocblas_reduction_kernel_block_count n k :=
  Nat.div_pos (by omega) hk

theorem rocblas_reduction_kernel_block_count_cover (n k : ℕ) (hk : 0 < k) :
    n ≤ k * rocblas_reduction_kernel_block_count n k := by
  unfold rocblas_reduction_kernel_block_count
  have hd := Nat.div_add_mod (n + k - 1) k
  have hr := Nat.mod_lt (n + k - 1) hk
  omega

theorem rocblas_reduction_kernel_block_count_eq_one (n k : ℕ) (h0 : 0 < n) (hnk : n ≤ k) :
    rocblas_reduction_kernel_block_count n k = 1 := by
  have hk : 0 < k := by omega
  unfold rocblas_reduction_kernel_block_count
  have h1 : 1 ≤ (n + k - 1) / k := (Nat.le_div_iff_mul_le hk).2 (by omega)
  have h2 : (n + k - 1) / k < 2 := (Nat.div_lt_iff_lt_mul hk).2 (by omega)
  omega

theorem rocblas_dot_kernel_out_eq (conjOp : R → R) (CONJ : Bool) (blocks NB W n : ℕ)
    (mem : ℤ → R) (xa shiftx incx stridex ya shifty incy stridey : ℤ) (b : ℕ)
    (hNB : 0 < NB) (hblocks : 0 < blocks) (hn : n ≤ NB * blocks * W) :
    rocblas_dot_kernel_out conjOp CONJ blocks NB W n mem
        xa shiftx incx stridex ya shifty incy stridey b
      = ∑ i in Finset.range n,
          mem (load_ptr_batch ya stridey b shifty + (i : ℤ) * incy)
            * cstar conjOp CONJ (mem (load_ptr_batch xa stridex b shiftx + (i : ℤ) * incx)) :=
  dot_grid_sum_eq blocks NB W n _ hNB hblocks hn

theorem rocblas_dot_kernel_inc1_out_eq (conjOp : R → R) (CONJ : Bool) (blocks NB W n : ℕ)
    (mem : ℤ → R) (xa shiftx stridex ya shifty stridey : ℤ) (b : ℕ)
    (hNB : 0 < NB) (hblocks : 0 < blocks) (hn : n ≤ NB * blocks * W) :
    rocblas_dot_kernel_inc1_out conjOp CONJ blocks NB W n mem
        xa shiftx stridex ya shifty stridey b
      = ∑ i in Finset.range n,
          mem (load_ptr_batch ya stridey b shifty + (i : ℤ))
            * cstar conjOp CONJ (mem (load_ptr_batch xa stridex b shiftx + (i : ℤ))) :=
  dot_grid_sum_eq blocks NB W n _ hNB hblocks hn

theorem rocblas_dot_kernel_magsq_out_eq (conjOp : R → R) (CONJ : Bool) (blocks NB W n : ℕ)
    (mem : ℤ → R) (xa shiftx incx stridex : ℤ) (b : ℕ)
    (hNB : 0 < NB) (hblocks : 0 < blocks) (hn : n ≤ NB * blocks * W) :
    rocblas_dot_kernel_magsq_out conjOp CONJ blocks NB W n mem xa shiftx incx stridex b
      = ∑ i in Finset.range n,
          mem (load_ptr_batch xa stridex b shiftx + (i : ℤ) * incx)
            * cstar conjOp CONJ (mem (load_ptr_batch xa stridex b shiftx + (i : ℤ) * incx)) :=
  dot_grid_sum_eq blocks NB W n _ hNB hblocks hn

theorem rocblas_dot_kernel_inc1by2_out_eq (conjOp : R → R) (CONJ : Bool) (doubled : Bool)
    (blocks NB W n : ℕ) (mem : ℤ → R) (xa shiftx stridex ya shifty stridey : ℤ) (b : ℕ)
    (hNB : 0 < NB) (hblocks : 0 < blocks) (hn : n ≤ NB * blocks * W) :
    rocblas_dot_kernel_inc1by2_out conjOp CONJ doubled blocks NB W n mem
        xa shiftx stridex ya shifty stridey b
      = ∑ i in Finset.range n,
          mem (load_ptr_batch ya stridey b shifty + (i : ℤ))
            * cstar conjOp CONJ (mem (load_ptr_batch xa stridex b shiftx + (i : ℤ))) := by
  cases doubled with
  | false =>
    simp only [rocblas_dot_kernel_inc1by2_out, Bool.false_eq_true, if_false]
    exact dot_grid_sum_eq blocks NB W n _ hNB hblocks hn
  | true =>
    simp only [rocblas_dot_kernel_inc1by2_out, if_true, rocblas_dot_block_reduce]
    set fF : ℕ → R := fun i =>
      mem (load_ptr_batch ya stridey b shifty + (i : ℤ))
        * cstar conjOp CONJ (mem (load_ptr_batch xa stridex b shiftx + (i : ℤ))) with hfF
    rw [sum_grid_flatten blocks NB (fun g =>
      (by2Loop fF n (2 * (NB * blocks)) W (2 * g)).1 +
        if n % 2 = 1 ∧ (by2Loop fF n (2 * (NB * blocks)) W (2 * g)).2 = n - 1 then
          fF (n - 1) else 0)]
    rw [show blocks * NB = NB * blocks from Nat.mul_comm blocks NB]
    refine by2_grid _ n (NB * blocks) W (Nat.mul_pos hNB hblocks) ?_
    have h1 : NB * blocks * W ≤ 2 * (NB * blocks) * W :=
      Nat.mul_le_mul_right W (by omega)
    omega

theorem rocblas_dot_kernel_gfx942_out_eq (blocks NB n : ℕ) (mem : ℤ → R)
    (xa shiftx incx stridex ya shifty incy stridey : ℤ) (b : ℕ)
    (hNB : 0 < NB) (hblocks : 0 < blocks) (hn : n ≤ 4 * (NB * blocks)) :
    rocblas_dot_kernel_gfx942_out blocks NB n mem
        xa shiftx incx stridex ya shifty incy stridey b
      = ∑ i in Finset.range n,
          mem (load_ptr_batch ya stridey b shifty + (i : ℤ) * incy)
            * mem (load_ptr_batch xa stridex b shiftx + (i : ℤ) * incx) := by
  simp only [rocblas_dot_kernel_gfx942_out, rocblas_dot_block_reduce]
  rw [sum_grid_flatten blocks NB]
  rw [show blocks * NB = NB * blocks from Nat.mul_comm blocks NB]
  exact gfx942_grid _ n (NB * blocks) (Nat.mul_pos hNB hblocks) hn

theorem rocblas_dot_batched_4_kernel_out_eq (conjOp : R → R) (CONJ : Bool) (WARP n : ℕ)
    (mem : ℤ → R) (xa shiftx incx stridex ya shifty incy stridey : ℤ) (b : ℕ)
    (hW : 0 < WARP) :
    rocblas_dot_batched_4_kernel_out conjOp CONJ WARP n mem
        xa shiftx incx stridex ya shifty incy stridey b
      = ∑ i in Finset.range n,
          cstar conjOp CONJ (mem (load_ptr_batch xa stridex b shiftx + (i : ℤ) * incx))
            * mem (load_ptr_batch ya stridey b shifty + (i : ℤ) * incy) := by
  simp only [rocblas_dot_batched_4_kernel_out, rocblas_wavefront_reduce]
  exact batched4_cover _ n WARP hW

end KernelLemmas

/-- Master correctness of the dot launcher, by cases on the dispatch: for
`n > 0`, `batch_count > 0` and `b < batch_count`, every path delivers
`results[b] = sum_i (CONJ ? conj(x[i]) : x[i]) * y[i]` with the operands
resolved through the batch/offset/stride descriptor and the
negative-increment pre-shift.  The hypothesis `hconj` records that
conjugation is the identity on the real element types (`float`/`double`),
as it is in the source; it is only needed on the gfx942 path, whose kernel
omits the conjugation and which is only reachable for those types. -/
theorem dot_launcher_result_aux {R : Type} [CommRing R] (conjOp : R → R) (et : ElemType)
    (NB : ℕ) (CONJ : Bool) (hd : Handle) (sddotLower : ℤ) (n : ℤ) (mem : ℤ → R)
    (xa offsetx incx stridex ya offsety incy stridey : ℤ) (batch_count : ℤ)
    (results : ℕ → R) (b : ℕ)
    (hNB : 0 < NB) (hwarp : 0 < hd.warpSize) (hn : 0 < n) (hbc : 0 < batch_count)
    (hb : (b : ℤ) < batch_count)
    (hconj : (et = .f32 ∨ et = .f64) → ∀ v : R, conjOp v = v) :
    (rocblas_internal_dot_launcher conjOp et NB CONJ hd sddotLower n mem
        xa offsetx incx stridex ya offsety incy stridey batch_count results).1
      = RocblasStatus.success
    ∧ (rocblas_internal_dot_launcher conjOp et NB CONJ hd sddotLower n mem
        xa offsetx incx stridex ya offsety incy stridey batch_count results).2 b
      = ∑ i in Finset.range n.toNat,
          cstar conjOp CONJ
              (mem (load_ptr_batch xa stridex b (negShift offsetx incx n.toNat)
                + (i : ℤ) * incx))
            * mem (load_ptr_batch ya stridey b (negShift offsety incy n.toNat)
                + (i : ℤ) * incy) := by
  have hq : ¬(n ≤ 0 ∨ batch_count = 0) := by omega
  have hn0 : 0 < n.toNat := by omega
  unfold rocblas_internal_dot_launcher rocblas_internal_dot_dispatch
  rw [if_neg hq]
  set shx := negShift offsetx incx n.toNat with hshx
  set shy := negShift offsety incy n.toNat with hshy
  by_cases hsmall : n ≤ 1024 ∧ batch_count ≥ 256
  · rw [if_pos hsmall]
    dsimp only
    rw [if_pos hb]
    refine ⟨rfl, ?_⟩
    exact rocblas_dot_batched_4_kernel_out_eq conjOp CONJ hd.warpSize n.toNat mem
      xa shx incx stridex ya shy incy stridey b hwarp
  rw [if_neg hsmall]
  by_cases hob : n ≤ (rocblas_dot_one_block_threshold et : ℤ)
  · rw [if_pos hob]
    set blocks := rocblas_reduction_kernel_block_count n.toNat (1024 * 32) with hblocks
    have hbpos : 0 < blocks :=
      rocblas_reduction_kernel_block_count_pos _ _ hn0 (by norm_num)
    have hcover : n.toNat ≤ 1024 * blocks * 32 := by
      have := rocblas_reduction_kernel_block_count_cover n.toNat (1024 * 32) (by norm_num)
      omega
    by_cases hal : dotSameDescriptor xa incx offsetx stridex ya incy offsety stridey = true
    · have hals : xa = ya ∧ incx = incy ∧ offsetx = offsety ∧ stridex = stridey := by
        simpa [dotSameDescriptor, Bool.and_eq_true, decide_eq_true_eq, and_assoc] using hal
      rw [if_neg (not_not_intro hal)]
      dsimp only
      rw [if_pos hb]
      refine ⟨rfl, ?_⟩
      rw [rocblas_dot_kernel_magsq_out_eq conjOp CONJ blocks 1024 32 n.toNat mem
        xa shx incx stridex b (by norm_num) hbpos hcover]
      obtain ⟨h1, h2, h3, h4⟩ := hals
      have hsh : shy = shx := by rw [hshx, hshy, ← h2, ← h3]
      refine Finset.sum_congr rfl fun i _ => ?_
      rw [← h1, ← h2, ← h4, hsh]
      ring
    · rw [if_pos (by simpa using hal)]
      by_cases hinc : incx = 1 ∧ incy = 1
      · rw [if_pos hinc]
        dsimp only
        rw [if_pos hb]
        refine ⟨rfl, ?_⟩
        rw [rocblas_dot_kernel_inc1by2_out_eq conjOp CONJ (dotKernelDoubled et) blocks 1024 32
          n.toNat mem xa shx stridex ya shy stridey b (by norm_num) hbpos hcover]
        refine Finset.sum_congr rfl fun i _ => ?_
        rw [hinc.1, hinc.2]
        simp [mul_comm]
      · rw [if_neg hinc]
        dsimp only
        rw [if_pos hb]
        refine ⟨rfl, ?_⟩
        rw [rocblas_dot_kernel_out_eq conjOp CONJ blocks 1024 32 n.toNat mem
          xa shx incx stridex ya shy incy stridey b (by norm_num) hbpos hcover]
        exact Finset.sum_congr rfl fun i _ => mul_comm _ _
  rw [if_neg hob]
  by_cases hg : hd.arch = 942 ∧ (dotIsFloat et ∨ dotIsDouble et) ∧ sddotLower < n
      ∧ ¬(dotSameDescriptor xa incx offsetx stridex ya incy offsety stridey = true)
  · rw [if_pos hg]
    dsimp only
    rw [if_pos hb]
    refine ⟨rfl, ?_⟩
    set blocks := rocblas_reduction_kernel_block_count n.toNat (1024 * 4) with hblocks
    have hbpos : 0 < blocks :=
      rocblas_reduction_kernel_block_count_pos _ _ hn0 (by norm_num)
    have hcover : n.toNat ≤ 4 * (1024 * blocks) := by
      have := rocblas_reduction_kernel_block_count_cover n.toNat (1024 * 4) (by norm_num)
      omega
    rw [rocblas_dot_kernel_gfx942_out_eq blocks 1024 n.toNat mem
      xa shx incx stridex ya shy incy stridey b (by norm_num) hbpos hcover]
    have hid : ∀ v : R, conjOp v = v := by
      apply hconj
      rcases hg.2.1 with hf | hf
      · exact Or.inl (by simpa [dotIsFloat, decide_eq_true_eq] using hf)
      · exact Or.inr (by simpa [dotIsDouble, decide_eq_true_eq] using hf)
    refine Finset.sum_congr rfl fun i _ => ?_
    cases CONJ <;> simp [cstar, hid] <;> ring
  rw [if_neg hg]
  set blocks := rocblas_reduction_kernel_block_count n.toNat (NB * rocblas_dot_WIN et)
    with hblocks
  have hkpos : 0 < NB * rocblas_dot_WIN et := Nat.mul_pos hNB (rocblas_dot_WIN_pos et)
  have hbpos : 0 < blocks :=
    rocblas_reduction_kernel_block_count_pos _ _ hn0 hkpos
  have hcover : n.toNat ≤ NB * blocks * rocblas_dot_WIN et := by
    have h1 := rocblas_reduction_kernel_block_count_cover n.toNat
      (NB * rocblas_dot_WIN et) hkpos
    rw [← hblocks] at h1
    have h2 : NB * rocblas_dot_WIN et * blocks = NB * blocks * rocblas_dot_WIN et := by ring
    omega
  by_cases hal : dotSameDescriptor xa incx offsetx stridex ya incy offsety stridey = true
  · have hals : xa = ya ∧ incx = incy ∧ offsetx = offsety ∧ stridex = stridey := by
      simpa [dotSameDescriptor, Bool.and_eq_true, decide_eq_true_eq, and_assoc] using hal
    rw [if_neg (not_not_intro hal)]
    dsimp only
    rw [if_pos hb]
    refine ⟨rfl, ?_⟩
    rw [rocblas_dot_kernel_magsq_out_eq conjOp CONJ blocks NB (rocblas_dot_WIN et) n.toNat mem
      xa shx incx stridex b hNB hbpos hcover]
    obtain ⟨h1, h2, h3, h4⟩ := hals
    have hsh : shy = shx := by rw [hshx, hshy, ← h2, ← h3]
    refine Finset.sum_congr rfl fun i _ => ?_
    rw [← h1, ← h2, ← h4, hsh]
    ring
  · rw [if_pos (by simpa using hal)]
    by_cases hinc : incx = 1 ∧ incy = 1
    · rw [if_pos hinc]
      dsimp only
      rw [if_pos hb]
      refine ⟨rfl, ?_⟩
      rw [rocblas_dot_kernel_inc1_out_eq conjOp CONJ blocks NB (rocblas_dot_WIN et) n.toNat mem
        xa shx stridex ya shy stridey b hNB hbpos hcover]
      refine Finset.sum_congr rfl fun i _ => ?_
      rw [hinc.1, hinc.2]
      simp [mul_comm]
    · rw [if_neg hinc]
      dsimp only
      rw [if_pos hb]
      refine ⟨rfl, ?_⟩
      rw [rocblas_dot_kernel_out_eq conjOp CONJ blocks NB (rocblas_dot_WIN et) n.toNat mem
        xa shx incx stridex ya shy incy stridey b hNB hbpos hcover]
      exact Finset.sum_congr rfl fun i _ => mul_comm _ _

/-- C1: For every call to the dot launcher with `n > 0` and
`batch_count > 0`, and for every batch index `b` in `[0, batch_count)`, the
returned status is success and `result[b]` equals the sum over `i` from `0`
to `n-1` of `x[i]*y[i]` (with `x` conjugated when the CONJ/dotc variant is
selected), where `x[i]` and `y[i]` are resolved through the
batch/offset/stride descriptor, including the negative-increment pre-shift.
In particular (see the witness), for `n = 5`, `x = [1,2,3,4,5]`,
`y = [5,4,3,2,1]`, `batch_count = 1` the result is `35`. -/
theorem dot_launcher_computes_dot {R : Type} [CommRing R] (conjOp : R → R) (et : ElemType)
    (NB : ℕ) (CONJ : Bool) (hd : Handle) (sddotLower : ℤ) (n : ℤ) (mem : ℤ → R)
    (xa offsetx incx stridex ya offsety incy stridey : ℤ) (batch_count : ℤ)
    (results : ℕ → R) (b : ℕ)
    (hNB : 0 < NB) (hwarp : 0 < hd.warpSize) (hn : 0 < n) (hbc : 0 < batch_count)
    (hb : (b : ℤ) < batch_count)
    (hconj : (et = .f32 ∨ et = .f64) → ∀ v : R, conjOp v = v) :
    (rocblas_internal_dot_launcher conjOp et NB CONJ hd sddotLower n mem
        xa offsetx incx stridex ya offsety incy stridey batch_count results).1
      = RocblasStatus.success
    ∧ (rocblas_internal_dot_launcher conjOp et NB CONJ hd sddotLower n mem
        xa offsetx incx stridex ya offsety incy stridey batch_count results).2 b
      = ∑ i in Finset.range n.toNat,
          cstar conjOp CONJ
              (mem (load_ptr_batch xa stridex b (negShift offsetx incx n.toNat)
                + (i : ℤ) * incx))
            * mem (load_ptr_batch ya stridey b (negShift offsety incy n.toNat)
                + (i : ℤ) * incy) :=
  dot_launcher_result_aux conjOp et NB CONJ hd sddotLower n mem
    xa offsetx incx stridex ya offsety incy stridey batch_count results b
    hNB hwarp hn hbc hb hconj

/-- Witness for C1: the spec's end-to-end scenario.  `x = [1,2,3,4,5]` is
stored at addresses `0..4`, `y = [5,4,3,2,1]` at addresses `100..104`,
`n = 5`, `batch_count = 1`, double precision, unit increments; the launcher
(which takes the one-block `inc1by2` path here) returns
`1*5+2*4+3*3+4*2+5*1 = 35`. -/
theorem dot_launcher_computes_dot_witness :
    (rocblas_internal_dot_launcher (R := ℤ) id .f64 512 false
        ⟨.host, false, 0, 32⟩ 0 5
        (fun k => if 0 ≤ k ∧ k < 5 then k + 1 else if 100 ≤ k ∧ k < 105 then 105 - k else 0)
        0 0 1 0 100 0 1 0 1 (fun _ => 0)).2 0 = 35 := by
  rw [(dot_launcher_computes_dot (R := ℤ) id .f64 512 false ⟨.host, false, 0, 32⟩ 0 5
    (fun k => if 0 ≤ k ∧ k < 5 then k + 1 else if 100 ≤ k ∧ k < 105 then 105 - k else 0)
    0 0 1 0 100 0 1 0 1 (fun _ => 0) 0
    (by decide) (by decide) (by decide) (by decide) (by decide)
    (fun _ v => rfl)).2]
  decide

/-- Counterexample for C4: in device-memory size-query mode the quick return
(`rocblas_dot_kernels.hpp` lines 389-390) returns
`rocblas_status_size_unchanged` — not success — and leaves the results
untouched: with `n = 0`, `batch_count = 1` and `results[0] = 7` on entry,
the status differs from success and `results[0]` stays `7` instead of being
zeroed. -/
theorem dot_launcher_quick_return_counterexample :
    (rocblas_internal_dot_launcher (R := ℤ) id .f64 512 false
        ⟨.host, true, 0, 32⟩ 0 0 (fun _ => 0) 0 0 1 0 0 0 1 0 1 (fun _ => 7)).1
      = RocblasStatus.sizeUnchanged
    ∧ (rocblas_internal_dot_launcher (R := ℤ) id .f64 512 false
        ⟨.host, true, 0, 32⟩ 0 0 (fun _ => 0) 0 0 1 0 0 0 1 0 1 (fun _ => 7)).2 0 = 7
    ∧ RocblasStatus.sizeUnchanged ≠ RocblasStatus.success := by
  refine ⟨rfl, rfl, by decide⟩

/-- C4 (amended): For every call to the dot launcher with `n <= 0` or
`batch_count = 0` on a handle that is not in device-memory size-query mode,
the launcher returns success without selecting any kernel, all
`batch_count` entries of the results array are forcibly set to zero (by
`hipMemsetAsync` in device pointer mode, by direct host stores otherwise),
entries beyond `batch_count` are untouched, and neither `x` nor `y` is read
(the outcome is independent of the memory contents).  In size-query mode
the launcher instead returns `rocblas_status_size_unchanged` and leaves the
results untouched. -/
theorem dot_launcher_quick_return {R : Type} [CommRing R] (conjOp : R → R) (et : ElemType)
    (NB : ℕ) (CONJ : Bool) (hd : Handle) (sddotLower : ℤ) (n : ℤ) (mem : ℤ → R)
    (xa offsetx incx stridex ya offsety incy stridey : ℤ) (batch_count : ℤ)
    (results : ℕ → R)
    (hq : n ≤ 0 ∨ batch_count = 0) (hsq : hd.sizeQuery = false) :
    rocblas_internal_dot_dispatch et NB hd sddotLower n
        xa offsetx incx stridex ya offsety incy stridey batch_count = none
    ∧ (rocblas_internal_dot_launcher conjOp et NB CONJ hd sddotLower n mem
        xa offsetx incx stridex ya offsety incy stridey batch_count results).1
      = RocblasStatus.success
    ∧ (∀ b : ℕ, (b : ℤ) < batch_count →
        (rocblas_internal_dot_launcher conjOp et NB CONJ hd sddotLower n mem
          xa offsetx incx stridex ya offsety incy stridey batch_count results).2 b = 0)
    ∧ (∀ b : ℕ, ¬((b : ℤ) < batch_count) →
        (rocblas_internal_dot_launcher conjOp et NB CONJ hd sddotLower n mem
          xa offsetx incx stridex ya offsety incy stridey batch_count results).2 b
          = results b)
    ∧ (∀ mem' : ℤ → R,
        rocblas_internal_dot_launcher conjOp et NB CONJ hd sddotLower n mem
          xa offsetx incx stridex ya offsety incy stridey batch_count results
        = rocblas_internal_dot_launcher conjOp et NB CONJ hd sddotLower n mem'
          xa offsetx incx stridex ya offsety incy stridey batch_count results) := by
  have hdis : rocblas_internal_dot_dispatch et NB hd sddotLower n
      xa offsetx incx stridex ya offsety incy stridey batch_count = none := by
    unfold rocblas_internal_dot_dispatch
    rw [if_pos hq]
  refine ⟨hdis, ?_, ?_, ?_, ?_⟩ <;>
    simp only [rocblas_internal_dot_launcher, hdis, hsq, Bool.false_eq_true, if_false]
  · intro b hb
    rw [if_pos hb]
  · intro b hb
    rw [if_neg hb]
  · intro mem'
    trivial

/-- Witness for C4 (amended): `n = 0`, `batch_count = 2`, host pointer mode,
no size query: success, both results zeroed, the entry at index 5 untouched,
memory-independent. -/
theorem dot_launcher_quick_return_witness :
    rocblas_internal_dot_dispatch .f64 512 ⟨.host, false, 0, 32⟩ 0 0 0 0 1 0 0 0 1 0 2 = none
    ∧ (rocblas_internal_dot_launcher (R := ℤ) id .f64 512 false
        ⟨.host, false, 0, 32⟩ 0 0 (fun _ => 3) 0 0 1 0 0 0 1 0 2 (fun _ => 7)).1
      = RocblasStatus.success
    ∧ (rocblas_internal_dot_launcher (R := ℤ) id .f64 512 false
        ⟨.host, false, 0, 32⟩ 0 0 (fun _ => 3) 0 0 1 0 0 0 1 0 2 (fun _ => 7)).2 0 = 0
    ∧ (rocblas_internal_dot_launcher (R := ℤ) id .f64 512 false
        ⟨.host, false, 0, 32⟩ 0 0 (fun _ => 3) 0 0 1 0 0 0 1 0 2 (fun _ => 7)).2 5 = 7 := by
  obtain ⟨h1, h2, h3, h4, _⟩ := dot_launcher_quick_return (R := ℤ) id .f64 512 false
    ⟨.host, false, 0, 32⟩ 0 0 (fun _ => 3) 0 0 1 0 0 0 1 0 2 (fun _ => 7)
    (by decide) rfl
  exact ⟨h1, h2, h3 0 (by decide), h4 5 (by decide)⟩

/-- Counterexample for C5: a dot call with identical x/y descriptors that
falls in the small-n/high-batch branch (`n <= 1024 && batch_count >= 256`,
`rocblas_dot_kernels.hpp` line 423) does NOT select the squared-magnitude
kernel — that branch performs no aliasing test and always launches
`rocblas_dot_batched_4_kernel`.  Here `n = 1`, `batch_count = 256`, both
descriptors `(base 0, inc 1, offset 0, stride 0)`. -/
theorem dot_dispatch_aliased_counterexample :
    dotSameDescriptor 0 1 0 0 0 1 0 0 = true
    ∧ rocblas_internal_dot_dispatch .f64 512 ⟨.host, false, 0, 32⟩ 0 1
        0 0 1 0 0 0 1 0 256 = some .small
    ∧ DotChoice.isMagsq .small = false := by
  refine ⟨by decide, rfl, by decide⟩

/-- C5 (amended): For every dot call with `n > 0` and `batch_count ≠ 0` in
which the x and y operand descriptors are identical (same base pointer,
same inc, same offset, same stride) and which does not fall in the
small-n/high-batch branch (`n <= 1024 && batch_count >= 256`, which ignores
aliasing), the dispatch selects the squared-magnitude (magsq) kernel, and
the magsq kernel's result is identical — term by term, with the same
partitioning and reduction tree — to what the generic two-operand kernel
would produce on the same descriptor pair. -/
theorem dot_dispatch_aliased_selects_magsq {R : Type} [CommRing R] (conjOp : R → R)
    (CONJ : Bool) (et : ElemType) (NB : ℕ) (hd : Handle) (sddotLower : ℤ) (n : ℤ)
    (xa offsetx incx stridex ya offsety incy stridey : ℤ) (batch_count : ℤ)
    (hn : 0 < n) (hbc : batch_count ≠ 0)
    (hsmall : ¬(n ≤ 1024 ∧ batch_count ≥ 256))
    (hal : dotSameDescriptor xa incx offsetx stridex ya incy offsety stridey = true) :
    (rocblas_internal_dot_dispatch et NB hd sddotLower n
        xa offsetx incx stridex ya offsety incy stridey batch_count).map DotChoice.isMagsq
      = some true
    ∧ ∀ (blocks NB2 W n2 : ℕ) (mem : ℤ → R) (xb shiftx incx2 stridex2 : ℤ) (b : ℕ),
        rocblas_dot_kernel_magsq_out conjOp CONJ blocks NB2 W n2 mem xb shiftx incx2 stridex2 b
          = rocblas_dot_kernel_out conjOp CONJ blocks NB2 W n2 mem
              xb shiftx incx2 stridex2 xb shiftx incx2 stridex2 b := by
  constructor
  · unfold rocblas_internal_dot_dispatch
    rw [if_neg (by omega)]
    rw [if_neg hsmall]
    by_cases hob : n ≤ (rocblas_dot_one_block_threshold et : ℤ)
    · rw [if_pos hob, if_neg (not_not_intro hal)]
      rfl
    · rw [if_neg hob]
      rw [if_neg (fun hg => hg.2.2.2 hal)]
      rw [if_neg (not_not_intro hal)]
      rfl
  · intro blocks NB2 W n2 mem xb shiftx incx2 stridex2 b
    rfl

/-- Witness for C5 (amended): double precision, `n = 5`, `batch_count = 1`
(so the small-n/high-batch branch is not taken), aliased descriptors: the
one-block magsq kernel is selected and computes
`1*1+2*2+3*3+4*4+5*5 = 55`, matching the generic kernel on the same
descriptors. -/
theorem dot_dispatch_aliased_selects_magsq_witness :
    (rocblas_internal_dot_dispatch .f64 512 ⟨.host, false, 0, 32⟩ 0 5
        0 0 1 0 0 0 1 0 1).map DotChoice.isMagsq = some true
    ∧ rocblas_dot_kernel_magsq_out (R := ℤ) id false 1 1024 32 5
        (fun k => if 0 ≤ k ∧ k < 5 then k + 1 else 0) 0 0 1 0 0
      = rocblas_dot_kernel_out (R := ℤ) id false 1 1024 32 5
        (fun k => if 0 ≤ k ∧ k < 5 then k + 1 else 0) 0 0 1 0 0 0 1 0 0 := by
  obtain ⟨h1, h2⟩ := dot_dispatch_aliased_selects_magsq (R := ℤ) id false .f64 512
    ⟨.host, false, 0, 32⟩ 0 5 0 0 1 0 0 0 1 0 1
    (by decide) (by decide) (by decide) (by decide)
  exact ⟨h1, h2 1 1024 32 5 (fun k => if 0 ≤ k ∧ k < 5 then k + 1 else 0) 0 0 1 0 0⟩

/-- Every threshold returned by `rocblas_dot_one_block_threshold` is at most
`1024 * 32 = 32768`. -/
theorem dot_one_block_threshold_le (t : ElemType) :
    rocblas_dot_one_block_threshold t ≤ 32768 := by
  cases t <;> decide

/-- C6: The dot dispatch follows the spec's decision table as a pure
function of its inputs: when `n <= 1024` and `batch_count >= 256` the
one-kernel small-n/high-batch specialization is chosen (one wavefront per
batch element, no finalize kernel, i.e. no two-phase protocol); otherwise
when `n` is at most the per-type single-block threshold (31000 for 32-bit
float, 13000 for 64-bit float, and lower values for the complex types than
for the corresponding real ones), one of the one-block kernels is chosen
with exactly one block per batch element and the phase-2 finalize kernel is
never launched. -/
theorem dot_dispatch_decision_table (et : ElemType) (NB : ℕ) (hd : Handle)
    (sddotLower : ℤ) (n : ℤ) (xa offsetx incx stridex ya offsety incy stridey : ℤ)
    (batch_count : ℤ) (hn : 0 < n) (hbc : batch_count ≠ 0) :
    (n ≤ 1024 ∧ batch_count ≥ 256 →
      rocblas_internal_dot_dispatch et NB hd sddotLower n
          xa offsetx incx stridex ya offsety incy stridey batch_count = some .small
      ∧ DotChoice.hasFinalize .small = false)
    ∧ (¬(n ≤ 1024 ∧ batch_count ≥ 256) →
        n ≤ (rocblas_dot_one_block_threshold et : ℤ) →
        ∃ c : DotChoice,
          rocblas_internal_dot_dispatch et NB hd sddotLower n
              xa offsetx incx stridex ya offsety incy stridey batch_count = some c
          ∧ c.isOneBlock = true ∧ c.blocksOf = 1 ∧ c.hasFinalize = false)
    ∧ rocblas_dot_one_block_threshold .f32 = 31000
    ∧ rocblas_dot_one_block_threshold .f64 = 13000
    ∧ rocblas_dot_one_block_threshold .c32 < rocblas_dot_one_block_threshold .f32
    ∧ rocblas_dot_one_block_threshold .c64 < rocblas_dot_one_block_threshold .f64 := by
  have hq : ¬(n ≤ 0 ∨ batch_count = 0) := by omega
  refine ⟨?_, ?_, by decide, by decide, by decide, by decide⟩
  · intro hsmall
    constructor
    · unfold rocblas_internal_dot_dispatch
      rw [if_neg hq, if_pos hsmall]
    · decide
  · intro hsmall hob
    have hone : rocblas_reduction_kernel_block_count n.toNat (1024 * 32) = 1 := by
      refine rocblas_reduction_kernel_block_count_eq_one _ _ (by omega) ?_
      have := dot_one_block_threshold_le et
      omega
    unfold rocblas_internal_dot_dispatch
    rw [if_neg hq, if_neg hsmall, if_pos hob]
    by_cases hal : dotSameDescriptor xa incx offsetx stridex ya incy offsety stridey = true
    · rw [if_neg (not_not_intro hal)]
      exact ⟨.oneBlockMagsq 1, by rw [hone], rfl, rfl, rfl⟩
    · rw [if_pos hal]
      by_cases hinc : incx = 1 ∧ incy = 1
      · rw [if_pos hinc]
        exact ⟨.oneBlockInc1by2 1, by rw [hone], rfl, rfl, rfl⟩
      · rw [if_neg hinc]
        exact ⟨.oneBlockStrided 1, by rw [hone], rfl, rfl, rfl⟩

/-- Witness for C6: with `n = 1000`, `batch_count = 300` the small branch
fires; with `n = 5000`, `batch_count = 1`, double precision, the one-block
branch fires with one block and no finalize kernel. -/
theorem dot_dispatch_decision_table_witness :
    (rocblas_internal_dot_dispatch .f64 512 ⟨.host, false, 0, 32⟩ 0 1000
        0 0 1 0 100 0 1 0 300 = some .small)
    ∧ ∃ c : DotChoice,
        rocblas_internal_dot_dispatch .f64 512 ⟨.host, false, 0, 32⟩ 0 5000
            0 0 1 0 100 0 1 0 1 = some c
        ∧ c.isOneBlock = true ∧ c.blocksOf = 1 ∧ c.hasFinalize = false := by
  refine ⟨((dot_dispatch_decision_table .f64 512 ⟨.host, false, 0, 32⟩ 0 1000
      0 0 1 0 100 0 1 0 300 (by decide) (by decide)).1 (by decide)).1, ?_⟩
  exact (dot_dispatch_decision_table .f64 512 ⟨.host, false, 0, 32⟩ 0 5000
      0 0 1 0 100 0 1 0 1 (by decide) (by decide)).2.1 (by decide) (by decide)

/-- C10: In the dot launcher's one-block branch the computed block count
`rocblas_reduction_kernel_block_count(n, 1024*32)` always equals 1, because
every value returned by `rocblas_dot_one_block_threshold` (32768 default,
31000, 16000, 13000, 10000) is at most `1024*32 = 32768`; hence the
`assert(blocks == 1)` guard always holds, and on this path no finalize
kernel consumes the partial-sum workspace (no one-block choice has a
finalize phase). -/
theorem dot_one_block_assert_holds (et : ElemType) :
    (rocblas_dot_one_block_threshold et ≤ 1024 * 32)
    ∧ (∀ n : ℕ, 0 < n → n ≤ rocblas_dot_one_block_threshold et →
        rocblas_reduction_kernel_block_count n (1024 * 32) = 1)
    ∧ (∀ c : DotChoice, c.isOneBlock = true → c.hasFinalize = false) := by
  refine ⟨by have := dot_one_block_threshold_le et; omega, ?_, ?_⟩
  · intro n hn hle
    refine rocblas_reduction_kernel_block_count_eq_one _ _ hn ?_
    have := dot_one_block_threshold_le et
    omega
  · intro c hc
    cases c <;> simp_all [DotChoice.isOneBlock, DotChoice.hasFinalize]

/-- Witness for C10: at the largest in-range size `n = 32768` (the default
threshold) the block count is 1, and the magsq one-block choice has no
finalize phase. -/
theorem dot_one_block_assert_holds_witness :
    rocblas_reduction_kernel_block_count 32768 (1024 * 32) = 1
    ∧ DotChoice.hasFinalize (.oneBlockMagsq 1) = false := by
  obtain ⟨_, h2, h3⟩ := dot_one_block_assert_holds .half
  exact ⟨h2 32768 (by decide) (by decide), h3 (.oneBlockMagsq 1) (by decide)⟩

/-- C7: For every operation taking a vector with increment `inc` and
logical length `len`, when `inc` is negative the effective base offset is
pre-shifted by `-inc*(len-1)` before the kernel iterates forward — so
logical index 0 maps to the highest accessed address and logical index
`len-1` maps back to the raw offset — and when `inc` is non-negative the
offset is left as given.  This holds uniformly: the dot launcher resolves
both operands through `negShift` with length `n` (second conjunct, the
launcher's delivered value reads both operands at
`negShift offset inc n`-based addresses), and the ger launcher pre-shifts
`x` with length `m` and `y` with length `n` (third conjunct). -/
theorem negShift_descriptor_resolution :
    (∀ (offset inc : ℤ) (len : ℕ), 1 ≤ len →
      (0 ≤ inc → negShift offset inc len = offset)
      ∧ (inc < 0 →
          negShift offset inc len = offset + (-inc) * ((len : ℤ) - 1)
          ∧ (∀ i : ℕ, i < len →
              negShift offset inc len + (i : ℤ) * inc ≤ negShift offset inc len)
          ∧ negShift offset inc len + ((len : ℤ) - 1) * inc = offset))
    ∧ (∀ {R : Type} [CommRing R] (conjOp : R → R) (et : ElemType) (NB : ℕ) (CONJ : Bool)
        (hd : Handle) (sddotLower : ℤ) (n : ℤ) (mem : ℤ → R)
        (xa offsetx incx stridex ya offsety incy stridey : ℤ) (batch_count : ℤ)
        (results : ℕ → R) (b : ℕ),
        0 < NB → 0 < hd.warpSize → 0 < n → 0 < batch_count → (b : ℤ) < batch_count →
        ((et = .f32 ∨ et = .f64) → ∀ v : R, conjOp v = v) →
        (rocblas_internal_dot_launcher conjOp et NB CONJ hd sddotLower n mem
            xa offsetx incx stridex ya offsety incy stridey batch_count results).2 b
          = ∑ i in Finset.range n.toNat,
              cstar conjOp CONJ
                  (mem (load_ptr_batch xa stridex b (negShift offsetx incx n.toNat)
                    + (i : ℤ) * incx))
                * mem (load_ptr_batch ya stridey b (negShift offsety incy n.toNat)
                    + (i : ℤ) * incy))
    ∧ (∀ {R : Type} [CommRing R] [DecidableEq R] (conjOp : R → R) (CONJ : Bool)
        (t : GerElem) (hd : Handle) (m n : ℕ) (alphaFn : ℕ → R)
        (xmem : ℤ → R) (xa offsetx incx stridex : ℤ)
        (ymem : ℤ → R) (ya offsety incy stridey : ℤ)
        (Aa offsetA lda strideA : ℤ) (b : ℕ),
        rocblas_internal_ger_writes conjOp CONJ t hd m n alphaFn
            xmem xa offsetx incx stridex ymem ya offsety incy stridey
            Aa offsetA lda strideA b
          = rocblas_internal_ger_writes_shifted conjOp CONJ t hd m n alphaFn
              xmem xa (negShift offsetx incx m) incx stridex
              ymem ya (negShift offsety incy n) incy stridey
              Aa offsetA lda strideA b) := by
  refine ⟨?_, ?_, ?_⟩
  · intro offset inc len hlen
    constructor
    · intro hpos
      unfold negShift
      rw [if_neg (by omega)]
    · intro hneg
      have hsh : negShift offset inc len = offset - inc * ((len : ℤ) - 1) := by
        unfold negShift
        rw [if_pos hneg]
      refine ⟨by rw [hsh]; ring, ?_, by rw [hsh]; ring⟩
      intro i hi
      rw [hsh]
      have hi' : (i : ℤ) ≤ (len : ℤ) - 1 := by
        have : (i : ℤ) < (len : ℤ) := by exact_mod_cast hi
        omega
      nlinarith [mul_le_mul_of_nonpos_right hi' (le_of_lt hneg)]
  · intro R _ conjOp et NB CONJ hd sddotLower n mem
      xa offsetx incx stridex ya offsety incy stridey batch_count results b
      hNB hwarp hn hbc hb hconj
    exact (dot_launcher_result_aux conjOp et NB CONJ hd sddotLower n mem
      xa offsetx incx stridex ya offsety incy stridey batch_count results b
      hNB hwarp hn hbc hb hconj).2
  · intro R _ _ conjOp CONJ t hd m n alphaFn xmem xa offsetx incx stridex
      ymem ya offsety incy stridey Aa offsetA lda strideA b
    rfl

/-- Witness for C7: `offset = 10`, `inc = -2`, `len = 3`: the shifted base
is `14`, logical index 2 reads back at the raw offset `10`, and logical
index 0 is the highest address. -/
theorem negShift_descriptor_resolution_witness :
    negShift 10 (-2) 3 = 14
    ∧ negShift 10 (-2) 3 + (2 : ℤ) * (-2) ≤ negShift 10 (-2) 3
    ∧ negShift 10 (-2) 3 + ((3 : ℤ) - 1) * (-2) = 10
    ∧ negShift 10 2 3 = 10 := by
  have h := (negShift_descriptor_resolution.1 10 (-2) 3 (by decide))
  have hneg := h.2 (by decide)
  refine ⟨?_, ?_, hneg.2.2, (negShift_descriptor_resolution.1 10 2 3 (by decide)).1 (by decide)⟩
  · rw [hneg.1]; decide
  · exact hneg.2.1 2 (by decide)

/-- Counterexample for C9: the double-buffered gemvt kernel
(`rocblas_gemvt_double_buffered_kernel_calc`,
`src/reference/gemv/gemv_device.hpp` line 917) also performs a hardware
atomic add into `y` from multiple cooperative groups (its grid splits the
row range over `gridDim.y` blocks that all accumulate into the same
`y[tx*incy]`), so the gemvn double-buffered kernel is not the only such
place and its atomic add is not the sole use of `atomicAdd`. -/
theorem atomic_add_not_unique_counterexample :
    usesAtomicAdd .gemvt_double_buffered_kernel_calc = true
    ∧ SrcKernel.gemvt_double_buffered_kernel_calc
        ≠ SrcKernel.gemvn_double_buffered_kernel_calc := by
  decide

/-- C9 (amended): The two double-buffered gemv tilings — gemvn and gemvt —
are the only places in the library where multiple cooperative groups
accumulate into the same output location, and their atomic adds are the
only uses of hardware atomic addition across all kernels in the
repository's source files. -/
theorem atomic_add_exactly_double_buffered_gemv :
    ∀ k : SrcKernel, usesAtomicAdd k = true
      ↔ (k = .gemvn_double_buffered_kernel_calc ∨ k = .gemvt_double_buffered_kernel_calc) := by
  decide

section GerLemmas

variable {R : Type} [CommRing R] [DecidableEq R]

/-- The value of a memory after a list of `+=` writes: the old value plus
the sum of all values written to that address. -/
theorem applyAdds_apply (ws : List (ℤ × R)) :
    ∀ (A : ℤ → R) (a : ℤ), applyAdds A ws a
      = A a + (ws.map (fun w => if w.1 = a then w.2 else 0)).sum := by
  induction ws with
  | nil => intro A a; simp [applyAdds]
  | cons w ws ih =>
    intro A a
    show applyAdds (Function.update A w.1 (A w.1 + w.2)) ws a = _
    rw [ih]
    by_cases h : w.1 = a
    · subst h
      rw [Function.update_same]
      simp only [List.map_cons, List.sum_cons, eq_self_iff_true, if_true]
      ring
    · rw [Function.update_noteq (fun hc => h hc.symm)]
      simp only [List.map_cons, List.sum_cons, if_neg h]
      ring

/-- Negating every written value negates the accumulated sum at every
address. -/
theorem sum_at_map_neg (l : List (ℤ × R)) (a : ℤ) :
    ((l.map (fun w => ((w.1, -w.2) : ℤ × R))).map (fun w => if w.1 = a then w.2 else 0)).sum
      = -((l.map (fun w => if w.1 = a then w.2 else 0)).sum) := by
  induction l with
  | nil => simp
  | cons w l ih =>
    simp only [List.map_cons, List.sum_cons, ih]
    by_cases h : w.1 = a <;> simp [h] <;> ring

/-- Negating `alpha` negates every write of `rocblas_ger_kernel`. -/
theorem rocblas_ger_kernel_writes_neg (conjOp : R → R) (CONJ : Bool)
    (DIMX DIMY W gridX m n : ℕ) (alpha : R)
    (xmem : ℤ → R) (xa shiftx incx stridex : ℤ)
    (ymem : ℤ → R) (ya shifty incy stridey : ℤ)
    (Aa shifta lda strideA : ℤ) (b : ℕ) :
    rocblas_ger_kernel_writes conjOp CONJ DIMX DIMY W gridX m n (-alpha)
        xmem xa shiftx incx stridex ymem ya shifty incy stridey Aa shifta lda strideA b
      = (rocblas_ger_kernel_writes conjOp CONJ DIMX DIMY W gridX m n alpha
          xmem xa shiftx incx stridex ymem ya shifty incy stridey
          Aa shifta lda strideA b).map (fun w => (w.1, -w.2)) := by
  by_cases h0 : alpha = 0
  · simp [rocblas_ger_kernel_writes, h0]
  · unfold rocblas_ger_kernel_writes
    rw [if_neg (by simpa using h0), if_neg h0]
    simp only [List.map_flatMap, List.map_filterMap, List.map_append, List.map_map,
      List.map_cons, List.map_nil,
      apply_ite (List.map (fun w : ℤ × R => (w.1, -w.2))),
      apply_ite (Option.map (fun w : ℤ × R => (w.1, -w.2))),
      Option.map_some', Option.map_none', Function.comp_def, mul_neg, neg_mul]

/-- Negating `alpha` negates every write of `rocblas_sger_kernel`. -/
theorem rocblas_sger_kernel_writes_neg (DIMX m n : ℕ) (alpha : R)
    (xmem : ℤ → R) (xa shiftx incx stridex : ℤ)
    (ymem : ℤ → R) (ya shifty incy stridey : ℤ)
    (Aa shifta lda strideA : ℤ) (b : ℕ) :
    rocblas_sger_kernel_writes DIMX m n (-alpha)
        xmem xa shiftx incx stridex ymem ya shifty incy stridey Aa shifta lda strideA b
      = (rocblas_sger_kernel_writes DIMX m n alpha
          xmem xa shiftx incx stridex ymem ya shifty incy stridey
          Aa shifta lda strideA b).map (fun w => (w.1, -w.2)) := by
  by_cases h0 : alpha = 0
  · simp [rocblas_sger_kernel_writes, h0]
  · unfold rocblas_sger_kernel_writes
    rw [if_neg (by simpa using h0), if_neg h0]
    simp only [List.map_flatMap, List.map_filterMap, List.map_append, List.map_map,
      List.map_cons, List.map_nil,
      apply_ite (List.map (fun w : ℤ × R => (w.1, -w.2))),
      apply_ite (Option.map (fun w : ℤ × R => (w.1, -w.2))),
      Option.map_some', Option.map_none', Function.comp_def, mul_neg, neg_mul]

/-- Negating `alpha` negates every write of `rocblas_sger_gfx942_kernel`. -/
theorem rocblas_sger_gfx942_kernel_writes_neg (DIMX gridX m n : ℕ) (alpha : R)
    (xmem : ℤ → R) (xa shiftx incx stridex : ℤ)
    (ymem : ℤ → R) (ya shifty incy stridey : ℤ)
    (Aa shifta lda strideA : ℤ) (b : ℕ) :
    rocblas_sger_gfx942_kernel_writes DIMX gridX m n (-alpha)
        xmem xa shiftx incx stridex ymem ya shifty incy stridey Aa shifta lda strideA b
      = (rocblas_sger_gfx942_kernel_writes DIMX gridX m n alpha
          xmem xa shiftx incx stridex ymem ya shifty incy stridey
          Aa shifta lda strideA b).map (fun w => (w.1, -w.2)) := by
  by_cases h0 : alpha = 0
  · simp [rocblas_sger_gfx942_kernel_writes, h0]
  · unfold rocblas_sger_gfx942_kernel_writes
    rw [if_neg (by simpa using h0), if_neg h0]
    simp only [List.map_flatMap, List.map_filterMap, List.map_append, List.map_map,
      List.map_cons, List.map_nil,
      apply_ite (List.map (fun w : ℤ × R => (w.1, -w.2))),
      apply_ite (Option.map (fun w : ℤ × R => (w.1, -w.2))),
      Option.map_some', Option.map_none', Function.comp_def, mul_neg, neg_mul]

/-- Negating `alpha` negates every write of
`rocblas_ger_double_buffered_kernel`. -/
theorem rocblas_ger_double_buffered_kernel_writes_neg (conjOp : R → R) (CONJ : Bool)
    (DIMX DIMY ept gX gY m n : ℕ) (alpha : R)
    (xmem : ℤ → R) (xa shiftx incx stridex : ℤ)
    (ymem : ℤ → R) (ya shifty incy stridey : ℤ)
    (Aa shifta lda strideA : ℤ) (b : ℕ) :
    rocblas_ger_double_buffered_kernel_writes conjOp CONJ DIMX DIMY ept gX gY m n (-alpha)
        xmem xa shiftx incx stridex ymem ya shifty incy stridey Aa shifta lda strideA b
      = (rocblas_ger_double_buffered_kernel_writes conjOp CONJ DIMX DIMY ept gX gY m n alpha
          xmem xa shiftx incx stridex ymem ya shifty incy stridey
          Aa shifta lda strideA b).map (fun w => (w.1, -w.2)) := by
  by_cases h0 : alpha = 0
  · simp [rocblas_ger_double_buffered_kernel_writes, h0]
  · unfold rocblas_ger_double_buffered_kernel_writes
    rw [if_neg (by simpa using h0), if_neg h0]
    simp only [List.map_flatMap, List.map_filterMap, List.map_append, List.map_map,
      List.map_cons, List.map_nil,
      apply_ite (List.map (fun w : ℤ × R => (w.1, -w.2))),
      apply_ite (Option.map (fun w : ℤ × R => (w.1, -w.2))),
      Option.map_some', Option.map_none', Function.comp_def, mul_neg, neg_mul]

end GerLemmas

section GerClaims

variable {R : Type} [CommRing R] [DecidableEq R]

/-- Every kernel the ger launcher can select produces no writes for a batch
whose effective `alpha` is zero. -/
theorem rocblas_internal_ger_writes_zero (conjOp : R → R) (CONJ : Bool) (t : GerElem)
    (hd : Handle) (m n : ℕ) (alphaFn : ℕ → R)
    (xmem : ℤ → R) (xa offsetx incx stridex : ℤ)
    (ymem : ℤ → R) (ya offsety incy stridey : ℤ)
    (Aa offsetA lda strideA : ℤ) (b : ℕ) (halpha : alphaFn b = 0) :
    rocblas_internal_ger_writes conjOp CONJ t hd m n alphaFn
        xmem xa offsetx incx stridex ymem ya offsety incy stridey
        Aa offsetA lda strideA b = [] := by
  unfold rocblas_internal_ger_writes rocblas_internal_ger_writes_shifted
  cases rocblas_internal_ger_dispatch t hd m n <;>
    simp [rocblas_ger_double_buffered_kernel_writes, rocblas_sger_gfx942_kernel_writes,
      rocblas_sger_kernel_writes, rocblas_ger_kernel_writes, halpha]

/-- Negating every batch's effective `alpha` negates every write of the ger
launcher, whichever kernel is dispatched. -/
theorem rocblas_internal_ger_writes_neg (conjOp : R → R) (CONJ : Bool) (t : GerElem)
    (hd : Handle) (m n : ℕ) (alphaFn : ℕ → R)
    (xmem : ℤ → R) (xa offsetx incx stridex : ℤ)
    (ymem : ℤ → R) (ya offsety incy stridey : ℤ)
    (Aa offsetA lda strideA : ℤ) (b : ℕ) :
    rocblas_internal_ger_writes conjOp CONJ t hd m n (fun i => -(alphaFn i))
        xmem xa offsetx incx stridex ymem ya offsety incy stridey
        Aa offsetA lda strideA b
      = (rocblas_internal_ger_writes conjOp CONJ t hd m n alphaFn
          xmem xa offsetx incx stridex ymem ya offsety incy stridey
          Aa offsetA lda strideA b).map (fun w => (w.1, -w.2)) := by
  unfold rocblas_internal_ger_writes rocblas_internal_ger_writes_shifted
  cases rocblas_internal_ger_dispatch t hd m n
  · exact rocblas_ger_double_buffered_kernel_writes_neg conjOp CONJ _ _ _ _ _ m n
      (alphaFn b) xmem xa _ incx stridex ymem ya _ incy stridey Aa offsetA lda strideA b
  · exact rocblas_sger_gfx942_kernel_writes_neg _ _ m n (alphaFn b)
      xmem xa _ incx stridex ymem ya _ incy stridey Aa offsetA lda strideA b
  · exact rocblas_sger_kernel_writes_neg _ m n (alphaFn b)
      xmem xa _ incx stridex ymem ya _ incy stridey Aa offsetA lda strideA b
  · exact rocblas_ger_kernel_writes_neg conjOp CONJ _ _ _ _ m n (alphaFn b)
      xmem xa _ incx stridex ymem ya _ incy stridey Aa offsetA lda strideA b

/-- C3: For every ger call, a batch element whose effective `alpha` is zero
produces no write at all to `A` — the kernels exit before loading any
element of `x`, `y` or `A` (the empty write list is derived for arbitrary
memory contents) — so when every batch's `alpha` is zero the launcher
returns `A` bitwise unchanged; consequently `ger(alpha)` followed by
`ger(-alpha)` restores `A` exactly for `alpha = 0`, and for general
per-batch `alpha` (in the exact arithmetic of the embedding, i.e. within
floating-point round-off on hardware) the round trip restores every element
of `A`. -/
theorem ger_alpha_zero_and_round_trip (conjOp : R → R) (CONJ : Bool) (t : GerElem)
    (hd : Handle) (m n : ℕ) (alphaFn : ℕ → R)
    (xmem : ℤ → R) (xa offsetx incx stridex : ℤ)
    (ymem : ℤ → R) (ya offsety incy stridey : ℤ)
    (Amem : ℤ → R) (Aa offsetA lda strideA : ℤ) (batch_count : ℕ) :
    (∀ b : ℕ, alphaFn b = 0 →
      rocblas_internal_ger_writes conjOp CONJ t hd m n alphaFn
        xmem xa offsetx incx stridex ymem ya offsety incy stridey
        Aa offsetA lda strideA b = [])
    ∧ ((∀ b : ℕ, b < batch_count → alphaFn b = 0) →
        rocblas_internal_ger_launcher conjOp CONJ t hd m n alphaFn
            xmem xa offsetx incx stridex ymem ya offsety incy stridey
            Amem Aa offsetA lda strideA batch_count
          = (RocblasStatus.success, Amem))
    ∧ (∀ a : ℤ,
        (rocblas_internal_ger_launcher conjOp CONJ t hd m n (fun i => -(alphaFn i))
            xmem xa offsetx incx stridex ymem ya offsety incy stridey
            ((rocblas_internal_ger_launcher conjOp CONJ t hd m n alphaFn
                xmem xa offsetx incx stridex ymem ya offsety incy stridey
                Amem Aa offsetA lda strideA batch_count).2)
            Aa offsetA lda strideA batch_count).2 a
          = Amem a) := by
  refine ⟨?_, ?_, ?_⟩
  · intro b hb
    exact rocblas_internal_ger_writes_zero conjOp CONJ t hd m n alphaFn
      xmem xa offsetx incx stridex ymem ya offsety incy stridey
      Aa offsetA lda strideA b hb
  · intro hall
    unfold rocblas_internal_ger_launcher
    by_cases hq : m = 0 ∨ n = 0 ∨ batch_count = 0
    · rw [if_pos hq]
    · rw [if_neg hq]
      have hnil : ((List.range batch_count).flatMap fun b =>
          rocblas_internal_ger_writes conjOp CONJ t hd m n alphaFn
            xmem xa offsetx incx stridex ymem ya offsety incy stridey
            Aa offsetA lda strideA b) = [] := by
        refine List.bind_eq_nil.mpr ?_
        intro b hbm
        exact rocblas_internal_ger_writes_zero conjOp CONJ t hd m n alphaFn
          xmem xa offsetx incx stridex ymem ya offsety incy stridey
          Aa offsetA lda strideA b (hall b (List.mem_range.1 hbm))
      rw [hnil]
      rfl
  · intro a
    unfold rocblas_internal_ger_launcher
    by_cases hq : m = 0 ∨ n = 0 ∨ batch_count = 0
    · rw [if_pos hq, if_pos hq]
    · rw [if_neg hq, if_neg hq]
      dsimp only
      rw [applyAdds_apply, applyAdds_apply]
      have hmap : ((List.range batch_count).flatMap fun b =>
          rocblas_internal_ger_writes conjOp CONJ t hd m n (fun i => -(alphaFn i))
            xmem xa offsetx incx stridex ymem ya offsety incy stridey
            Aa offsetA lda strideA b)
          = ((List.range batch_count).flatMap fun b =>
              rocblas_internal_ger_writes conjOp CONJ t hd m n alphaFn
                xmem xa offsetx incx stridex ymem ya offsety incy stridey
                Aa offsetA lda strideA b).map (fun w => (w.1, -w.2)) := by
        rw [List.map_flatMap]
        congr 1
        funext b
        exact rocblas_internal_ger_writes_neg conjOp CONJ t hd m n alphaFn
          xmem xa offsetx incx stridex ymem ya offsety incy stridey
          Aa offsetA lda strideA b
      rw [hmap, sum_at_map_neg]
      ring

end GerClaims

/-- Witness for C3: `m = n = 2`, one batch, generic path (double precision,
non-gfx90a handle).  With zero `alpha` the write list is empty and the
launcher returns `A` unchanged; with `alpha = 2` the round trip
`ger(2)` then `ger(-2)` restores `A[0]`. -/
theorem ger_alpha_zero_and_round_trip_witness :
    rocblas_internal_ger_writes (R := ℤ) id false .f64 ⟨.host, false, 0, 32⟩ 2 2
        (fun _ => 0) (fun _ => 1) 0 0 1 0 (fun _ => 1) 50 0 1 0 200 0 2 0 0 = []
    ∧ rocblas_internal_ger_launcher (R := ℤ) id false .f64 ⟨.host, false, 0, 32⟩ 2 2
        (fun _ => 0) (fun _ => 1) 0 0 1 0 (fun _ => 1) 50 0 1 0 (fun a => a) 200 0 2 0 1
      = (RocblasStatus.success, fun a => a)
    ∧ (rocblas_internal_ger_launcher (R := ℤ) id false .f64 ⟨.host, false, 0, 32⟩ 2 2
        (fun i => -((fun _ => (2 : ℤ)) i)) (fun _ => 1) 0 0 1 0 (fun _ => 1) 50 0 1 0
        ((rocblas_internal_ger_launcher (R := ℤ) id false .f64 ⟨.host, false, 0, 32⟩ 2 2
            (fun _ => (2 : ℤ)) (fun _ => 1) 0 0 1 0 (fun _ => 1) 50 0 1 0
            (fun a => a) 200 0 2 0 1).2)
        200 0 2 0 1).2 0 = (fun a => (a : ℤ)) 0 := by
  obtain ⟨h1, h2, _⟩ := ger_alpha_zero_and_round_trip (R := ℤ) id false .f64
    ⟨.host, false, 0, 32⟩ 2 2 (fun _ => 0) (fun _ => 1) 0 0 1 0 (fun _ => 1) 50 0 1 0
    (fun a => a) 200 0 2 0 1
  refine ⟨h1 0 rfl, h2 (fun _ _ => rfl), ?_⟩
  exact (ger_alpha_zero_and_round_trip (R := ℤ) id false .f64
    ⟨.host, false, 0, 32⟩ 2 2 (fun _ => (2 : ℤ)) (fun _ => 1) 0 0 1 0 (fun _ => 1) 50 0 1 0
    (fun a => a) 200 0 2 0 1).2.2 0

/-- C2: For every gemv kernel invocation with `alpha == 0`, every covered
element of `y` is set to `beta*y` (to exact zero when `beta == 0`), no
element of `A` or `x` is ever read (the output is the same for arbitrary
`A`/`x` contents, so poisoned NaN/Inf values cannot propagate into `y`),
and when moreover `beta == 1` the output is left untouched — for both the
non-transpose kernel `rocblas_gemvn_kernel_calc` and the
transpose/conjugate-transpose kernel `rocblas_gemvt_kernel_calc`. -/
theorem gemv_alpha_zero_frame {R : Type} [CommRing R] [DecidableEq R] :
    (∀ (DIMX DIMY gridX m n : ℕ) (alpha : R) (A : ℤ → R) (lda : ℤ) (x : ℤ → R)
        (incx : ℤ) (beta : R) (y : ℤ → R) (incy : ℤ), alpha = 0 →
      (∀ ind : ℕ, ind < m → ind < gridX * (DIMX * 4) →
        rocblas_gemvn_kernel_calc_out DIMX DIMY gridX m n alpha A lda x incx beta y incy ind
          = if beta = 0 then 0 else beta * y ((ind : ℤ) * incy))
      ∧ (∀ (A2 x2 : ℤ → R),
          rocblas_gemvn_kernel_calc_out DIMX DIMY gridX m n alpha A lda x incx beta y incy
            = rocblas_gemvn_kernel_calc_out DIMX DIMY gridX m n alpha A2 lda x2 incx beta y incy)
      ∧ (beta = 1 → ∀ ind : ℕ,
          rocblas_gemvn_kernel_calc_out DIMX DIMY gridX m n alpha A lda x incx beta y incy ind
            = y ((ind : ℤ) * incy)))
    ∧ (∀ (conjOp : R → R) (CONJ : Bool) (NBX gridX n m : ℕ) (alpha : R) (A : ℤ → R)
        (lda : ℤ) (x : ℤ → R) (incx : ℤ) (beta : R) (y : ℤ → R) (incy : ℤ), alpha = 0 →
      (∀ col : ℕ, col < n → col < gridX →
        rocblas_gemvt_kernel_calc_out conjOp CONJ NBX gridX n m alpha A lda x incx beta y incy col
          = if beta = 0 then 0 else beta * y ((col : ℤ) * incy))
      ∧ (∀ (A2 x2 : ℤ → R),
          rocblas_gemvt_kernel_calc_out conjOp CONJ NBX gridX n m alpha A lda x incx beta y incy
            = rocblas_gemvt_kernel_calc_out conjOp CONJ NBX gridX n m alpha A2 lda x2 incx beta y incy)
      ∧ (beta = 1 → ∀ col : ℕ,
          rocblas_gemvt_kernel_calc_out conjOp CONJ NBX gridX n m alpha A lda x incx beta y incy col
            = y ((col : ℤ) * incy))) := by
  constructor
  · intro DIMX DIMY gridX m n alpha A lda x incx beta y incy halpha
    refine ⟨?_, ?_, ?_⟩
    · intro ind hm hcov
      unfold rocblas_gemvn_kernel_calc_out
      rw [if_pos ⟨hm, hcov⟩, if_pos halpha]
    · intro A2 x2
      funext ind
      unfold rocblas_gemvn_kernel_calc_out
      by_cases hcov : ind < m ∧ ind < gridX * (DIMX * 4)
      · rw [if_pos hcov, if_pos hcov, if_pos halpha, if_pos halpha]
      · rw [if_neg hcov, if_neg hcov]
    · intro hbeta ind
      subst hbeta
      unfold rocblas_gemvn_kernel_calc_out
      by_cases hcov : ind < m ∧ ind < gridX * (DIMX * 4)
      · rw [if_pos hcov, if_pos halpha]
        by_cases h10 : (1 : R) = 0
        · haveI : Subsingleton R := subsingleton_of_zero_eq_one h10.symm
          exact Subsingleton.elim _ _
        · rw [if_neg h10, one_mul]
      · rw [if_neg hcov]
  · intro conjOp CONJ NBX gridX n m alpha A lda x incx beta y incy halpha
    refine ⟨?_, ?_, ?_⟩
    · intro col hn hcov
      unfold rocblas_gemvt_kernel_calc_out
      rw [if_pos ⟨hn, hcov⟩, if_pos halpha]
    · intro A2 x2
      funext col
      unfold rocblas_gemvt_kernel_calc_out
      by_cases hcov : col < n ∧ col < gridX
      · rw [if_pos hcov, if_pos hcov, if_pos halpha, if_pos halpha]
      · rw [if_neg hcov, if_neg hcov]
    · intro hbeta col
      subst hbeta
      unfold rocblas_gemvt_kernel_calc_out
      by_cases hcov : col < n ∧ col < gridX
      · rw [if_pos hcov, if_pos halpha]
        by_cases h10 : (1 : R) = 0
        · haveI : Subsingleton R := subsingleton_of_zero_eq_one h10.symm
          exact Subsingleton.elim _ _
        · rw [if_neg h10, one_mul]
      · rw [if_neg hcov]

/-- Witness for C2: a 3-row, 2-column problem with poisoned `A`/`x`
(`999`/`888` standing in for NaN), `alpha = 0`, `beta = 2`, `y` the identity
over addresses: row 1 of gemvn becomes `2 * y[1] = 2`, the poison does not
propagate (replacing `A`/`x` by zero memories gives the same function), and
with `beta = 1` column 1 of gemvt keeps its old value `1`. -/
theorem gemv_alpha_zero_frame_witness :
    rocblas_gemvn_kernel_calc_out (R := ℤ) 2 2 1 3 2 0 (fun _ => 999) 10 (fun _ => 888) 1 2
        (fun a => a) 1 1 = 2
    ∧ rocblas_gemvn_kernel_calc_out (R := ℤ) 2 2 1 3 2 0 (fun _ => 999) 10 (fun _ => 888) 1 2
        (fun a => a) 1
      = rocblas_gemvn_kernel_calc_out (R := ℤ) 2 2 1 3 2 0 (fun _ => 0) 10 (fun _ => 0) 1 2
        (fun a => a) 1
    ∧ rocblas_gemvt_kernel_calc_out (R := ℤ) id true 4 2 2 3 0 (fun _ => 999) 10
        (fun _ => 888) 1 1 (fun a => a) 1 1 = 1 := by
  obtain ⟨hn, ht⟩ := gemv_alpha_zero_frame (R := ℤ)
  obtain ⟨h1, h2, _⟩ := hn 2 2 1 3 2 0 (fun _ => 999) 10 (fun _ => 888) 1 2 (fun a => a) 1 rfl
  obtain ⟨_, _, h3⟩ := ht id true 4 2 2 3 0 (fun _ => 999) 10 (fun _ => 888) 1 1
    (fun a => a) 1 rfl
  refine ⟨?_, h2 (fun _ => 0) (fun _ => 0), ?_⟩
  · rw [h1 1 (by decide) (by decide)]
    decide
  · rw [h3 rfl 1]
    decide

/-- The banded Hermitian helper computes, for each visited column, exactly
the spec's banded matrix element (spec remapping formula, conjugated
opposite triangle, real-part-only diagonal) times the `x` element. -/
theorem rocblas_hbmvn_kernel_helper_eq (DIMY ty ind : ℕ) (is_upper : Bool) (m k : ℕ)
    (A : ℤ → GaussianInt) (lda : ℤ) (x : ℤ → GaussianInt) (incx : ℤ) :
    rocblas_hbmvn_kernel_helper DIMY ty ind is_upper m k A lda x incx
      = if ind < m then
          ∑ col in (Finset.range m).filter (fun c => c % DIMY = ty),
            hermBandedEntry is_upper k A lda ind col * x ((col : ℤ) * incx)
        else 0 := by
  unfold rocblas_hbmvn_kernel_helper
  by_cases hm : ind < m
  · rw [if_pos hm]
    refine Finset.sum_congr rfl fun col hcol => ?_
    rw [if_pos hm]
    unfold hermBandedEntry
    cases is_upper <;>
      simp only [Bool.false_eq_true, if_false, if_true, false_and, and_false, true_and,
        and_true, false_or, or_false, not_false_iff, not_true_eq_false, Bool.true_eq_false,
        or_comm, and_comm] <;>
      split_ifs <;> first | rfl | omega | ring
  · rw [if_neg hm]
    rw [Finset.sum_congr rfl fun col _ => if_neg hm]
    simp

/-- The packed Hermitian accumulation computes, for each visited column,
exactly the spec's packed matrix element (spec packed-index formula,
conjugated opposite triangle, real-part-only diagonal) times the `x`
element. -/
theorem rocblas_hpmv_kernel_calc_res_eq (DIMY ty ind : ℕ) (is_upper : Bool)
    (n : ℕ) (AP : ℤ → GaussianInt) (x : ℤ → GaussianInt) (incx : ℤ) :
    rocblas_hpmv_kernel_calc_res DIMY ty ind is_upper n AP x incx
      = if ind < n then
          ∑ col in (Finset.range n).filter (fun c => c % DIMY = ty),
            packedHermEntry is_upper n AP ind col * x ((col : ℤ) * incx)
        else 0 := by
  unfold rocblas_hpmv_kernel_calc_res
  by_cases hn : ind < n
  · rw [if_pos hn]
    refine Finset.sum_congr rfl fun col hcol => ?_
    rw [if_pos hn]
    unfold packedHermEntry
    by_cases hdiag : ind = col
    · subst hdiag
      cases is_upper <;>
        simp only [Bool.false_eq_true, Bool.true_eq_false, and_false, false_and, and_true,
          true_and, false_or, or_false, not_false_iff, not_true_eq_false,
          decide_eq_true_eq, if_false, if_true] <;>
        split_ifs <;> first | rfl | omega | ring
    · cases is_upper <;>
        simp only [Bool.false_eq_true, Bool.true_eq_false, and_false, false_and, and_true,
          true_and, false_or, or_false, not_false_iff, not_true_eq_false,
          decide_eq_true_eq, if_false, if_true] <;>
        split_ifs <;> first | rfl | omega | ring
  · rw [if_neg hn]
    rw [Finset.sum_congr rfl fun col _ => if_neg hn]
    simp

/-- C8: The banded (hbmv) and packed (hpmv) Hermitian kernels address logical
element `(ind, col)` by exactly the spec's remapping formulas — banded stored
row `is_upper ? ind + (k - col) : ind - col`, packed stored index
`is_upper ? col*(col+1)/2 + ind : col*(2n - col + 1)/2 + (ind - col)` — with
the opposite triangle read as the conjugate of the transposed stored
position, and every main-diagonal element contributing only its real part to
the product, regardless of the imaginary value actually stored (the
real-part extraction is insensitive to the imaginary component). -/
theorem herm_index_remapping :
    (∀ (DIMY ty ind : ℕ) (is_upper : Bool) (m k : ℕ) (A : ℤ → GaussianInt)
        (lda : ℤ) (x : ℤ → GaussianInt) (incx : ℤ),
        rocblas_hbmvn_kernel_helper DIMY ty ind is_upper m k A lda x incx
          = if ind < m then
              ∑ col in (Finset.range m).filter (fun c => c % DIMY = ty),
                hermBandedEntry is_upper k A lda ind col * x ((col : ℤ) * incx)
            else 0)
    ∧ (∀ (DIMY ty ind : ℕ) (is_upper : Bool) (n : ℕ) (AP : ℤ → GaussianInt)
        (x : ℤ → GaussianInt) (incx : ℤ),
        rocblas_hpmv_kernel_calc_res DIMY ty ind is_upper n AP x incx
          = if ind < n then
              ∑ col in (Finset.range n).filter (fun c => c % DIMY = ty),
                packedHermEntry is_upper n AP ind col * x ((col : ℤ) * incx)
            else 0)
    ∧ (∀ z w : GaussianInt, z.re = w.re → giReal z = giReal w) :=
  ⟨rocblas_hbmvn_kernel_helper_eq, rocblas_hpmv_kernel_calc_res_eq,
   fun z w h => by simp [giReal, h]⟩

/-- Witness for C8: concrete upper banded (m = 2, k = 1) and lower packed
(n = 2) instances, and two stored diagonal values sharing a real part but
differing in the imaginary part yield the same extracted element. -/
theorem herm_index_remapping_witness :
    (rocblas_hbmvn_kernel_helper 1 0 0 true 2 1 (fun i => ⟨2 * i + 1, i - 4⟩) 2
        (fun _ => ⟨1, 0⟩) 1
      = if (0 : ℕ) < 2 then
          ∑ col in (Finset.range 2).filter (fun c => c % 1 = 0),
            hermBandedEntry true 1 (fun i => ⟨2 * i + 1, i - 4⟩) 2 0 col
              * (fun _ : ℤ => (⟨1, 0⟩ : GaussianInt)) ((col : ℤ) * 1)
        else 0)
    ∧ (rocblas_hpmv_kernel_calc_res 1 0 0 false 2 (fun i => ⟨i, i + 1⟩)
        (fun _ => ⟨1, 0⟩) 1
      = if (0 : ℕ) < 2 then
          ∑ col in (Finset.range 2).filter (fun c => c % 1 = 0),
            packedHermEntry false 2 (fun i => ⟨i, i + 1⟩) 0 col
              * (fun _ : ℤ => (⟨1, 0⟩ : GaussianInt)) ((col : ℤ) * 1)
        else 0)
    ∧ (⟨3, 5⟩ : GaussianInt).re = (⟨3, -7⟩ : GaussianInt).re
    ∧ giReal ⟨3, 5⟩ = giReal ⟨3, -7⟩ :=
  ⟨herm_index_remapping.1 1 0 0 true 2 1 (fun i => ⟨2 * i + 1, i - 4⟩) 2
      (fun _ => ⟨1, 0⟩) 1,
   herm_index_remapping.2.1 1 0 0 false 2 (fun i => ⟨i, i + 1⟩)
      (fun _ => ⟨1, 0⟩) 1,
   by decide,
   herm_index_remapping.2.2 ⟨3, 5⟩ ⟨3, -7⟩ (by decide)⟩
